import Mathlib

/-!
Verification development for the Research_Trends grid-navigation repository.

The repository contains several pygame variants of the same navigation core:
a one-shot A* pathfinder (`Game.py`, `Game5.py`, `Game7.py`), an incremental
greedy/LRTA*-style planner (`lrtastar.py`, `game10.py`, `game11.py`) and a
moving-obstacle collision check (`Barrier.check_collision`).  This file embeds
those functions shallowly (grids become functions `Cell → Nat`, Python dicts
become association lists or update functions, the `heapq` frontier becomes a
multiset represented as a list popped at its minimum under the tuple order)
and proves or refutes the specified properties.
-/

set_option maxHeartbeats 1000000

namespace RT

/-! ## Cells, grids and 4-connectivity -/

/-- Integer grid coordinate `(x, y)`, as used by every variant. -/
abbrev Cell := Int × Int

/-- Manhattan distance, the `heuristic` function shared by all variants:
`abs(a[0] - b[0]) + abs(a[1] - b[1])`. -/
def manhattan (a b : Cell) : Nat := (a.1 - b.1).natAbs + (a.2 - b.2).natAbs

/-- The 4-directional offset list `[(-1, 0), (1, 0), (0, -1), (0, 1)]`
(left, right, up, down), in the enumeration order used by every variant. -/
def dirs : List (Int × Int) := [(-1, 0), (1, 0), (0, -1), (0, 1)]

/-- Two cells are 4-adjacent when their difference is one of the offsets. -/
def Adj (a b : Cell) : Prop := (b.1 - a.1, b.2 - a.2) ∈ dirs

instance (a b : Cell) : Decidable (Adj a b) := by unfold Adj; infer_instance

/-- A cell is open on a `W × H` grid when it passes the bounds check
`0 <= nx < W and 0 <= ny < H` and the terrain check `maze[ny][nx] == 0`.
The maze array `maze[y][x]` is embedded as the function `maze (x, y)`. -/
def OpenCell (W H : Int) (maze : Cell → Nat) (c : Cell) : Prop :=
  0 ≤ c.1 ∧ c.1 < W ∧ 0 ≤ c.2 ∧ c.2 < H ∧ maze c = 0

instance (W H : Int) (maze : Cell → Nat) (c : Cell) :
    Decidable (OpenCell W H maze c) := by unfold OpenCell; infer_instance

/-- The finite set of open in-bounds cells of a grid. -/
def OpenCells (W H : Int) (maze : Cell → Nat) : Finset Cell :=
  ((Finset.Ico (0 : Int) W) ×ˢ (Finset.Ico (0 : Int) H)).filter (fun c => maze c = 0)

/-- The `get_neighbors` body shared by the variants: for each offset, keep the
shifted cell when it is in bounds and open. -/
def neighborsOf (W H : Int) (maze : Cell → Nat) (pos : Cell) : List Cell :=
  dirs.filterMap (fun d =>
    let n : Cell := (pos.1 + d.1, pos.2 + d.2)
    if 0 ≤ n.1 ∧ n.1 < W ∧ 0 ≤ n.2 ∧ n.2 < H ∧ maze n = 0 then some n else none)

/-- Walks in the 4-connected graph of open cells: `ReachN W H maze a c k`
says a walk of `k` steps leads from `a` to `c`, every stepped-onto cell
being open and in bounds.  This is the graph BFS operates on. -/
inductive ReachN (W H : Int) (maze : Cell → Nat) (a : Cell) : Cell → Nat → Prop
  | zero : ReachN W H maze a a 0
  | succ {c c' : Cell} {k : Nat} : ReachN W H maze a c k → Adj c c' →
      OpenCell W H maze c' → ReachN W H maze a c' (k + 1)

/-! ## The FSM states and the print channel -/

/-- The `NPCState` enum of the incremental variants. -/
inductive NPCState
  | IDLE
  | MOVING
  | GOAL_REACHED
deriving DecidableEq, Repr

/-- Console messages emitted by the incremental planner.  The Python code
reports "no valid neighbors", "revisiting" and "stuck" situations only via
`print(...)`; we record them on an output channel to reason about them. -/
inductive Msg
  | noNeighbors
  | revisit
  | stuck
deriving DecidableEq, Repr

/-- Python's `min(xs, key=f)`: the first element attaining the minimal key. -/
def argminKey (f : Cell → Nat) : List Cell → Option Cell
  | [] => none
  | x :: xs => some (xs.foldl (fun best n => if f n < f best then n else best) x)

/-! ## game10.py: the incremental planner with learned cell costs -/

namespace Game10

/-- State of `game10.py`'s `NPC`.  `cell_costs` is the adaptive-cost dict with
default 0 (`self.cell_costs.get(a, 0)`), embedded as a total function. -/
structure NPC where
  position : Cell
  previous_position : Option Cell
  goal : Cell
  path : List Cell
  visited : List Cell
  fsm : NPCState
  cell_costs : Cell → Nat
  out : List Msg

/-- `NPC.__init__(start, goal)`. -/
def NPC.init (start goal : Cell) : NPC :=
  { position := start
    previous_position := none
    goal := goal
    path := [start]
    visited := []
    fsm := NPCState.MOVING
    cell_costs := fun _ => 0
    out := [] }

/-- `NPC.heuristic`: Manhattan distance plus the adaptive cost of `a`. -/
def heuristic (costs : Cell → Nat) (a b : Cell) : Nat := manhattan a b + costs a

/-- The viable neighbors of a tick: `get_neighbors` filtered by
`n not in barriers.barriers`. -/
def viable (W H : Int) (maze : Cell → Nat) (pos : Cell) (barriers : List Cell) :
    List Cell :=
  (neighborsOf W H maze pos).filter (fun n => decide (n ∉ barriers))

/-- `min(neighbors, key=lambda n: self.heuristic(n, self.goal))` over the
viable neighbors; `none` when there are no viable neighbors. -/
def chooseNext (W H : Int) (maze : Cell → Nat) (pos goalc : Cell)
    (costs : Cell → Nat) (barriers : List Cell) : Option Cell :=
  argminKey (fun n => heuristic costs n goalc) (viable W H maze pos barriers)

/-- `NPC.backtrack`: pop the path tail and move there, or print "Stuck!" when
the path has a single element.  When the guard `len(self.path) > 1` holds the
popped list is non-empty, so the `getLastD` default is never used. -/
def NPC.backtrack (s : NPC) : NPC :=
  if 1 < s.path.length then
    let p := s.path.dropLast
    { s with path := p, position := p.getLastD s.position }
  else
    { s with out := s.out ++ [Msg.stuck] }

/-- The state after a committed move of `NPC.update`: record the previous
position, move, append to the path and bump the arrived cell's cost. -/
def NPC.moveTo (s : NPC) (next : Cell) : NPC :=
  { s with
    previous_position := some s.position
    position := next
    path := s.path ++ [next]
    cell_costs := fun c => if c = next then s.cell_costs next + 1 else s.cell_costs c }

/-- `NPC.update(barriers)` of `game10.py`: one incremental planning tick. -/
def NPC.update (W H : Int) (maze : Cell → Nat) (s : NPC) (barriers : List Cell) :
    NPC :=
  if s.fsm ≠ NPCState.MOVING then s
  else
    let s1 : NPC := { s with visited := s.visited ++ [s.position] }
    if s1.position = s1.goal then { s1 with fsm := NPCState.GOAL_REACHED }
    else
      match chooseNext W H maze s1.position s1.goal s1.cell_costs barriers with
      | none => NPC.backtrack { s1 with out := s1.out ++ [Msg.noNeighbors] }
      | some next =>
        if next ∈ s1.visited then
          NPC.backtrack { s1 with out := s1.out ++ [Msg.revisit] }
        else
          NPC.moveTo s1 next

/-- A tick on which `update` would reach the terminal "stuck" print: the agent
is moving, not at the goal, the tick backtracks (no viable neighbor, or the
chosen one was already visited) and the path cannot be popped. -/
def isStuckTick (W H : Int) (maze : Cell → Nat) (s : NPC) (barriers : List Cell) :
    Bool :=
  decide (s.fsm = NPCState.MOVING) && decide (s.position ≠ s.goal) &&
  decide (s.path.length ≤ 1) &&
  (match chooseNext W H maze s.position s.goal s.cell_costs barriers with
   | none => true
   | some n => decide (n ∈ s.visited ++ [s.position]))

/-- Iterated ticks from a given state, feeding tick `i` the barrier set
`bs i`; the barrier sets are arbitrary per tick. -/
def runFrom (W H : Int) (maze : Cell → Nat) (bs : Nat → List Cell) :
    Nat → NPC → NPC
  | 0, s => s
  | k + 1, s => runFrom W H maze (fun i => bs (i + 1)) k (NPC.update W H maze s (bs 0))

/-- The planner's full step sequence from `NPC.__init__(start, goal)`. -/
def run (W H : Int) (maze : Cell → Nat) (start goal : Cell)
    (bs : Nat → List Cell) (k : Nat) : NPC :=
  runFrom W H maze bs k (NPC.init start goal)

/-- Tick-counting potential: twice the number of open cells not yet visited
(counting the current position as visited) plus the path length. -/
def phi (W H : Int) (maze : Cell → Nat) (s : NPC) : Nat :=
  2 * ((OpenCells W H maze) \ (insert s.position s.visited.toFinset)).card +
    s.path.length

/-- The inductive invariant of the planner state: a non-empty path ending at
the current position, all non-tail path cells already visited, and the FSM
never back in `IDLE`. -/
def Inv (s : NPC) : Prop :=
  s.path ≠ [] ∧ s.path.getLast? = some s.position ∧
  (∀ c ∈ s.path.dropLast, c ∈ s.visited) ∧
  (s.fsm = NPCState.MOVING ∨ s.fsm = NPCState.GOAL_REACHED)

/-- The maze-relevant world state of one `game10.py` game-loop tick: the
module-level `maze` together with the NPC.  The tick body calls
`npc.update(barriers)`; no statement of `game10.py` assigns to `maze`, so the
tick carries it through unchanged. -/
structure World where
  maze : Cell → Nat
  npc : NPC

/-- One game-loop tick of `game10.py` restricted to the maze and the NPC. -/
def World.update (W H : Int) (w : World) (barriers : List Cell) : World :=
  { w with npc := NPC.update W H w.maze w.npc barriers }

end Game10

/-! ## Barrier.check_collision (lrtastar.py / game10.py, identical bodies) -/

/-- `Barrier.check_collision(npc_position, npc_previous_position)`: direct
overlap with any barrier, or the path-crossing rule: the barrier now at
`(x, y)` came from `(x, y - 1)` while the agent moved from `(x, y)` onto
`(x, y - 1)`.  `npc_previous_position` may be Python `None`, hence `Option`;
`None == (x, y)` is `False` in Python, matching the `Option` equality. -/
def check_collision (barriers : List Cell) (npcPos : Cell) (npcPrev : Option Cell) :
    Bool :=
  barriers.any (fun b =>
    decide (b = npcPos) ||
    (decide (npcPos = (b.1, b.2 - 1)) && decide (npcPrev = some (b.1, b.2))))

/-! ## lrtastar.py: the incremental planner that writes back into the maze

`lrtastar.py`'s `NPC.update` calls `update_heuristic`, which assigns
`maze[current[1]][current[0]] = min(current_h, next_h)` into the module-level
maze.  The maze is therefore part of the NPC's mutable world and is threaded
through the state here. -/

namespace Lrta

/-- State of `lrtastar.py`'s `NPC` together with the module-level `maze` it
reads and writes.  `speed` and `frame_counter` are set by `__init__` but never
read by `update`. -/
structure NPC where
  maze : Cell → Nat
  position : Cell
  previous_position : Option Cell
  goal : Cell
  path : List Cell
  visited : List Cell
  fsm : NPCState
  speed : Nat
  frame_counter : Nat
  out : List Msg

/-- `NPC.__init__(start, goal)` over a given module-level maze. -/
def NPC.init (maze : Cell → Nat) (start goal : Cell) : NPC :=
  { maze := maze
    position := start
    previous_position := none
    goal := goal
    path := [start]
    visited := []
    fsm := NPCState.MOVING
    speed := 1
    frame_counter := 0
    out := [] }

/-- `NPC.backtrack`, identical to `game10.py`'s. -/
def NPC.backtrack (s : NPC) : NPC :=
  if 1 < s.path.length then
    let p := s.path.dropLast
    { s with path := p, position := p.getLastD s.position }
  else
    { s with out := s.out ++ [Msg.stuck] }

/-- `NPC.update_heuristic(current, next_cell)`: write
`min(heuristic(current, goal), heuristic(next_cell, goal))` into the maze at
`current`. -/
def NPC.update_heuristic (s : NPC) (current next_cell : Cell) : NPC :=
  { s with maze := fun c =>
      if c = current then min (manhattan current s.goal) (manhattan next_cell s.goal)
      else s.maze c }

/-- `NPC.update(barriers)` of `lrtastar.py`.  The `barriers` argument is not
consulted by this variant (no barrier filtering of neighbors). -/
def NPC.update (W H : Int) (s : NPC) : NPC :=
  if s.fsm ≠ NPCState.MOVING then s
  else
    let s1 : NPC := { s with visited := s.visited ++ [s.position] }
    if s1.position = s1.goal then { s1 with fsm := NPCState.GOAL_REACHED }
    else
      match argminKey (fun n => manhattan n s1.goal)
          (neighborsOf W H s1.maze s1.position) with
      | none => NPC.backtrack { s1 with out := s1.out ++ [Msg.noNeighbors] }
      | some next =>
        let s2 := NPC.update_heuristic s1 s1.position next
        if next ∈ s2.visited then
          NPC.backtrack { s2 with out := s2.out ++ [Msg.revisit] }
        else
          { s2 with
            previous_position := some s2.position
            position := next
            path := s2.path ++ [next] }

end Lrta

/-! ## The heapq frontier shared by Game.py's astar and game11.py

Python's `heapq` maintains a binary min-heap of `(f, (x, y))` tuples ordered
lexicographically; `heappop` returns the least element.  We represent the heap
as the list of its elements and pop the minimum under the same order. -/

/-- Python's tuple order on heap entries `(f, (x, y))`. -/
def entryLt (a b : Nat × Cell) : Prop :=
  a.1 < b.1 ∨ (a.1 = b.1 ∧ (a.2.1 < b.2.1 ∨ (a.2.1 = b.2.1 ∧ a.2.2 < b.2.2)))

instance (a b : Nat × Cell) : Decidable (entryLt a b) := by
  unfold entryLt; infer_instance

/-- The least entry among `e :: es` under the tuple order. -/
def minEntry : Nat × Cell → List (Nat × Cell) → Nat × Cell
  | e, [] => e
  | e, x :: xs => minEntry (if entryLt x e then x else e) xs

/-- Remove the first occurrence of an entry from the heap list. -/
def eraseFirst : List (Nat × Cell) → (Nat × Cell) → List (Nat × Cell)
  | [], _ => []
  | x :: xs, a => if x = a then xs else x :: eraseFirst xs a

/-- `heapq.heappop`: return the least entry and the remaining multiset;
`none` on an empty heap. -/
def popMin (l : List (Nat × Cell)) : Option ((Nat × Cell) × List (Nat × Cell)) :=
  match l with
  | [] => none
  | e :: es =>
    let m := minEntry e es
    some (m, eraseFirst (e :: es) m)

/-! ## Python dicts keyed by cells, as association lists -/

/-- Dict lookup: value of the binding of `c`, if any. -/
def lookupg : List (Cell × Nat) → Cell → Option Nat
  | [], _ => none
  | (c, v) :: rest, c' => if c' = c then some v else lookupg rest c'

/-- Dict assignment `d[c] = v`: replace the binding of `c`, else append it. -/
def setg : List (Cell × Nat) → Cell → Nat → List (Cell × Nat)
  | [], c, v => [(c, v)]
  | (c', v') :: rest, c, v =>
    if c' = c then (c, v) :: rest else (c', v') :: setg rest c v

/-- The set of keys of an association list. -/
def keyset (g : List (Cell × Nat)) : Finset Cell := (g.map Prod.fst).toFinset

/-- The sum of all stored values, used in the termination measure. -/
def sumg (g : List (Cell × Nat)) : Nat := (g.map Prod.snd).sum

/-! ## Game.py's astar -/

namespace AStar

/-- The search state of `astar(maze, start, goal)`: the heap, the predecessor
dict and the g-score dict.  (`f_score` is also a dict in the source, but its
only read is of the value written on the same line, so it is inlined into the
pushed priority and carries no state.) -/
structure AState where
  open_set : List (Nat × Cell)
  came_from : Cell → Option Cell
  g_score : List (Cell × Nat)

/-- Termination measure: grid cells without a g-score, total g-score mass,
heap size (lexicographic). -/
def sizeMeasure (n : Int) (s : AState) : Nat × Nat × Nat :=
  (((Finset.Ico (0 : Int) n ×ˢ Finset.Ico (0 : Int) n) \ keyset s.g_score).card,
   sumg s.g_score, s.open_set.length)

/-- The body of the `for dx, dy in [...]` loop of `astar`: bounds-and-terrain
check the neighbor, then relax it when it has no g-score yet or the tentative
score improves it, pushing `(tentative + heuristic(neighbor, goal), neighbor)`. -/
def relaxOne (n : Int) (maze : Cell → Nat) (goal current : Cell)
    (st : AState) (d : Int × Int) : AState :=
  let nb : Cell := (current.1 + d.1, current.2 + d.2)
  if 0 ≤ nb.1 ∧ nb.1 < n ∧ 0 ≤ nb.2 ∧ nb.2 < n ∧ maze nb = 0 then
    let tentative := (lookupg st.g_score current).getD 0 + 1
    -- `neighbor not in g_score or tentative_g_score < g_score[neighbor]`
    if (lookupg st.g_score nb).all (fun v => decide (tentative < v)) then
      { open_set := st.open_set ++ [(tentative + manhattan nb goal, nb)]
        came_from := fun c => if c = nb then some current else st.came_from c
        g_score := setg st.g_score nb tentative }
    else st
  else st

/-- One frontier expansion: relax all four neighbors of the popped cell. -/
def astarStep (n : Int) (maze : Cell → Nat) (goal current : Cell)
    (st : AState) : AState :=
  dirs.foldl (relaxOne n maze goal current) st

/-- Path reconstruction: `while current in came_from: path.append(current);
current = came_from[current]`.  The fuel argument dominates the chain length
(the caller passes `len(g_score) + 1`; reachable predecessor chains are
strictly shorter, as proved below). -/
def rebuild (cf : Cell → Option Cell) : Nat → Cell → List Cell → List Cell
  | 0, _, acc => acc
  | fuel + 1, current, acc =>
    match cf current with
    | some prev => rebuild cf fuel prev (acc ++ [current])
    | none => acc

/-- The `while open_set:` loop of `astar`: pop the least entry; if it is the
goal, reconstruct and return the reversed path including `start`; otherwise
expand and continue.  Returns `[]` when the frontier empties. -/
def astarLoop (n : Int) (maze : Cell → Nat) (start goal : Cell)
    (s : AState) : List Cell :=
  match h : popMin s.open_set with
  | none => []
  | some (e, rest) =>
    if e.2 = goal then
      ((rebuild s.came_from (s.g_score.length + 1) goal []) ++ [start]).reverse
    else
      astarLoop n maze start goal
        (astarStep n maze goal e.2 { s with open_set := rest })
termination_by sizeMeasure n s
decreasing_by
  simp only [sizeMeasure]
  -- Facts about the association-list primitives, inlined here because the
  -- loop definition precedes the lemma sections of this file.
  have hlook_none : ∀ (g : List (Cell × Nat)) (c : Cell),
      lookupg g c = none → c ∉ keyset g := by
    intro g c hc
    induction g with
    | nil => simp [keyset]
    | cons p rest ih =>
      simp only [lookupg] at hc
      by_cases hpc : c = p.1
      · simp [hpc] at hc
      · simp only [keyset, List.map_cons, List.toFinset_cons, Finset.mem_insert]
        push_neg
        refine ⟨hpc, ?_⟩
        have := ih (by simpa [hpc] using hc)
        simpa [keyset] using this
  have hset_new : ∀ (g : List (Cell × Nat)) (c : Cell) (v : Nat),
      lookupg g c = none →
      (setg g c v).map Prod.fst = g.map Prod.fst ++ [c] ∧
        sumg (setg g c v) = sumg g + v := by
    intro g c v hc
    induction g with
    | nil => simp [setg, sumg]
    | cons p rest ih =>
      simp only [lookupg] at hc
      by_cases hpc : c = p.1
      · simp [hpc] at hc
      · have hp1 : ¬ (p.1 = c) := fun hh => hpc hh.symm
        have hrec := ih (by simpa [hpc] using hc)
        refine ⟨by simp [setg, hp1, hrec.1], ?_⟩
        simp only [setg, if_neg hp1, sumg, List.map_cons, List.sum_cons]
        have := hrec.2
        simp only [sumg] at this
        omega
  have hset_found : ∀ (g : List (Cell × Nat)) (c : Cell) (v w : Nat),
      lookupg g c = some w →
      (setg g c v).map Prod.fst = g.map Prod.fst ∧
        sumg (setg g c v) + w = sumg g + v := by
    intro g c v w hw
    induction g with
    | nil => simp [lookupg] at hw
    | cons p rest ih =>
      simp only [lookupg] at hw
      by_cases hpc : c = p.1
      · simp [hpc] at hw
        subst hw
        constructor
        · simp [setg, hpc]
        · simp [setg, hpc, sumg]
          omega
      · have hrec := ih (by simpa [hpc] using hw)
        have hp1 : ¬ (p.1 = c) := fun hh => hpc hh.symm
        constructor
        · simp [setg, hp1, hrec.1]
        · simp only [setg, if_neg hp1, sumg, List.map_cons, List.sum_cons]
          have := hrec.2
          simp only [sumg] at this
          omega
  -- Single relaxation: either the state is unchanged, or the unset-key count
  -- strictly drops, or it is unchanged while the g-mass strictly drops.
  set B := Finset.Ico (0 : Int) n ×ˢ Finset.Ico (0 : Int) n with hB
  have hone : ∀ (st : AState) (d : Int × Int),
      relaxOne n maze goal e.2 st d = st ∨
      ((B \ keyset (relaxOne n maze goal e.2 st d).g_score).card <
        (B \ keyset st.g_score).card) ∨
      ((B \ keyset (relaxOne n maze goal e.2 st d).g_score).card =
          (B \ keyset st.g_score).card ∧
        sumg (relaxOne n maze goal e.2 st d).g_score < sumg st.g_score) := by
    intro st d
    by_cases hguard : 0 ≤ e.2.1 + d.1 ∧ e.2.1 + d.1 < n ∧ 0 ≤ e.2.2 + d.2 ∧
        e.2.2 + d.2 < n ∧ maze (e.2.1 + d.1, e.2.2 + d.2) = 0
    · set nb : Cell := (e.2.1 + d.1, e.2.2 + d.2) with hnb
      set t := (lookupg st.g_score e.2).getD 0 + 1 with ht
      cases hl : lookupg st.g_score nb with
      | none =>
        have hrw : relaxOne n maze goal e.2 st d =
            { open_set := st.open_set ++ [(t + manhattan nb goal, nb)]
              came_from := fun c => if c = nb then some e.2 else st.came_from c
              g_score := setg st.g_score nb t } := by
          simp [relaxOne, ← hnb, hguard, hl, ← ht]
        rw [hrw]
        right; left
        have hnotin : nb ∉ keyset st.g_score := hlook_none _ _ hl
        have hkeys :
            keyset (setg st.g_score nb t) = insert nb (keyset st.g_score) := by
          have h1 := (hset_new st.g_score nb t hl).1
          simp only [keyset, h1, List.toFinset_append]
          rw [Finset.insert_eq]
          simp [Finset.union_comm]
        simp only [hkeys]
        apply Finset.card_lt_card
        constructor
        · intro x hx
          simp only [Finset.mem_sdiff, Finset.mem_insert] at hx ⊢
          exact ⟨hx.1, fun hxk => hx.2 (Or.inr hxk)⟩
        · intro hsub
          have hnbB : nb ∈ B := by
            rw [hB]
            simp only [Finset.mem_product, Finset.mem_Ico]
            exact ⟨⟨hguard.1, hguard.2.1⟩, ⟨hguard.2.2.1, hguard.2.2.2.1⟩⟩
          have h1 : nb ∈ B \ keyset st.g_score := by
            simp [Finset.mem_sdiff, hnbB, hnotin]
          have h2 := hsub h1
          simp [Finset.mem_sdiff] at h2
      | some v =>
        by_cases hlt : t < v
        · have hrw : relaxOne n maze goal e.2 st d =
              { open_set := st.open_set ++ [(t + manhattan nb goal, nb)]
                came_from := fun c => if c = nb then some e.2 else st.came_from c
                g_score := setg st.g_score nb t } := by
            simp [relaxOne, ← hnb, hguard, hl, ← ht, hlt]
          rw [hrw]
          right; right
          dsimp only
          have hf := hset_found st.g_score nb t v hl
          constructor
          · simp [keyset, hf.1]
          · have := hf.2
            omega
        · left
          simp [relaxOne, ← hnb, hguard, hl, ← ht, hlt]
    · left
      simp [relaxOne, hguard]
  -- Chain the four relaxations.
  have hchain : ∀ (ds : List (Int × Int)) (st : AState),
      (ds.foldl (relaxOne n maze goal e.2) st = st) ∨
      ((B \ keyset (ds.foldl (relaxOne n maze goal e.2) st).g_score).card <
        (B \ keyset st.g_score).card) ∨
      ((B \ keyset (ds.foldl (relaxOne n maze goal e.2) st).g_score).card =
          (B \ keyset st.g_score).card ∧
        sumg (ds.foldl (relaxOne n maze goal e.2) st).g_score < sumg st.g_score) := by
    intro ds
    induction ds with
    | nil => intro st; left; rfl
    | cons d ds ih =>
      intro st
      simp only [List.foldl_cons]
      rcases hone st d with h1 | h1 | h1
      · rw [h1]; exact ih st
      · rcases ih (relaxOne n maze goal e.2 st d) with h2 | h2 | h2
        · rw [h2]; right; left; exact h1
        · right; left; exact lt_trans h2 h1
        · right; left; omega
      · rcases ih (relaxOne n maze goal e.2 st d) with h2 | h2 | h2
        · rw [h2]; right; right; exact h1
        · right; left; omega
        · right; right; constructor
          · omega
          · exact lt_trans h2.2 h1.2
  -- The popped entry shrinks the heap.
  have hmem : ∀ (x : Nat × Cell) (xs : List (Nat × Cell)), minEntry x xs ∈ x :: xs := by
    intro x xs
    induction xs generalizing x with
    | nil => simp [minEntry]
    | cons y ys ih =>
      simp only [minEntry]
      by_cases hxy : entryLt y x
      · simp only [if_pos hxy]
        have := ih y
        rcases List.mem_cons.mp this with h | h
        · rw [h]; simp
        · simp [h]
      · simp only [if_neg hxy]
        have := ih x
        rcases List.mem_cons.mp this with h | h
        · rw [h]; simp
        · simp [h]
  have hlen_ef : ∀ (l : List (Nat × Cell)) (a : Nat × Cell), a ∈ l →
      (eraseFirst l a).length + 1 = l.length := by
    intro l a hal
    induction l with
    | nil => simp at hal
    | cons x xs ih =>
      by_cases hxa : x = a
      · simp [eraseFirst, hxa]
      · rcases List.mem_cons.mp hal with h1 | h1
        · exact absurd h1.symm hxa
        · simp [eraseFirst, hxa, ← ih h1]
  have hrest : rest.length < s.open_set.length := by
    rcases hl : s.open_set with _ | ⟨x, xs⟩
    · rw [hl] at h; simp [popMin] at h
    · rw [hl] at h
      simp only [popMin, Option.some.injEq, Prod.mk.injEq] at h
      have hre : rest = eraseFirst (x :: xs) (minEntry x xs) := h.2.symm
      have hm : minEntry x xs ∈ x :: xs := hmem x xs
      have := hlen_ef (x :: xs) (minEntry x xs) hm
      rw [hre]
      omega
  -- Assemble the lexicographic decrease.
  rcases hchain dirs { s with open_set := rest } with hc | hc | hc
  · rw [astarStep, hc]
    apply Prod.Lex.right
    apply Prod.Lex.right
    exact hrest
  · exact Prod.Lex.left _ _ hc
  · rw [astarStep]
    have h1 : (B \ keyset (dirs.foldl (relaxOne n maze goal e.2) { s with open_set := rest }).g_score).card = (B \ keyset s.g_score).card := hc.1
    rw [h1]
    apply Prod.Lex.right
    exact Prod.Lex.left _ _ hc.2

/-- The initial search state of `astar`: heap `[(0, start)]`, empty
predecessor dict, `g_score = {start: 0}`. -/
def initState (start : Cell) : AState :=
  { open_set := [(0, start)]
    came_from := fun _ => none
    g_score := [(start, 0)] }

/-- `astar(maze, start, goal)` of `Game.py`, parameterized by the grid size
`n` (the module-level `GRID_SIZE`). -/
def astar (n : Int) (maze : Cell → Nat) (start goal : Cell) : List Cell :=
  astarLoop n maze start goal (initState start)

/-- The inductive invariant of the search state: the start has g-score 0 and
no predecessor; every heap entry is the initial one or carries a cell whose
current g-score plus heuristic bounds its priority from below; every scored
cell other than the start is open with a scored adjacent predecessor of
strictly smaller g-score; and a scored goal always retains a heap entry. -/
def InvBase (n : Int) (maze : Cell → Nat) (start goal : Cell) (s : AState) : Prop :=
  lookupg s.g_score start = some 0 ∧
  s.came_from start = none ∧
  (∀ f c, (f, c) ∈ s.open_set → (f = 0 ∧ c = start) ∨
      ∃ v, lookupg s.g_score c = some v ∧ v + manhattan c goal ≤ f) ∧
  (∀ c v, lookupg s.g_score c = some v → c ≠ start →
      ∃ p vp, s.came_from c = some p ∧ Adj p c ∧ OpenCell n n maze c ∧
        lookupg s.g_score p = some vp ∧ vp + 1 ≤ v) ∧
  ((∃ v, lookupg s.g_score goal = some v) → ∃ f, (f, goal) ∈ s.open_set)

/-- Index `j` of the walk `w` is settled when its cell has g-score exactly
`j` (its true distance along a shortest walk). -/
def settled (g : List (Cell × Nat)) (w : List Cell) (start : Cell) (j : Nat) : Prop :=
  lookupg g (w.getD j start) = some j

instance (g : List (Cell × Nat)) (w : List Cell) (start : Cell) (j : Nat) :
    Decidable (settled g w start j) := by
  unfold settled; infer_instance

/-- The greatest settled index of the fixed shortest walk. -/
def witIdx (g : List (Cell × Nat)) (w : List Cell) (start : Cell) (m : Nat) : Nat :=
  Nat.findGreatest (settled g w start) m

/-- The A* progress invariant along a fixed shortest walk `w` of length `m`:
either the goal index is settled, or the greatest settled index retains a
heap entry whose priority is at most its distance-plus-heuristic. -/
def InvWit (goal : Cell) (w : List Cell) (start : Cell) (m : Nat) (s : AState) : Prop :=
  settled s.g_score w start m ∨
  ∃ f, f ≤ witIdx s.g_score w start m +
      manhattan (w.getD (witIdx s.g_score w start m) start) goal ∧
    (f, w.getD (witIdx s.g_score w start m) start) ∈ s.open_set

end AStar

/-- Executable check that a list of cells is a legal open walk continuing
from `a`, used to certify concrete connectivity instances. -/
def walkBool (W H : Int) (maze : Cell → Nat) : Cell → List Cell → Bool
  | _, [] => true
  | a, c :: rest =>
    decide (Adj a c) && decide (OpenCell W H maze c) && walkBool W H maze c rest

/-! ## Game7.py: NPC.a_star, the closed-list variant with start-exclusive
reconstruction -/

namespace Game7

/-- The search state of `NPC.a_star(start, goal)` of `Game7.py`: the heap,
the predecessor dict, the g-score dict and the `closed_list` set (embedded as
a list queried only for membership). -/
structure AState7 where
  open_set : List (Nat × Cell)
  came_from : Cell → Option Cell
  g_score : List (Cell × Nat)
  closed : List Cell

/-- Termination measure, as for `Game.py`'s loop: cells without a g-score,
total g-score mass, heap size (lexicographic). -/
def sizeMeasure7 (n : Int) (s : AState7) : Nat × Nat × Nat :=
  (((Finset.Ico (0 : Int) n ×ˢ Finset.Ico (0 : Int) n) \ keyset s.g_score).card,
   sumg s.g_score, s.open_set.length)

/-- The body of the neighbor loop of `a_star`: `get_neighbors` keeps in-bounds
cells with `maze[ny][nx] != 2`; a neighbor on the closed list is skipped
(`continue`); the relaxation condition and writes are those of `Game.py`,
pushing `(tentative + heuristic(neighbor, goal), neighbor)`. -/
def relaxOne7 (n : Int) (maze : Cell → Nat) (goal current : Cell)
    (st : AState7) (d : Int × Int) : AState7 :=
  let nb : Cell := (current.1 + d.1, current.2 + d.2)
  if 0 ≤ nb.1 ∧ nb.1 < n ∧ 0 ≤ nb.2 ∧ nb.2 < n ∧ maze nb ≠ 2 ∧ nb ∉ st.closed then
    let tentative := (lookupg st.g_score current).getD 0 + 1
    if (lookupg st.g_score nb).all (fun v => decide (tentative < v)) then
      { st with
        open_set := st.open_set ++ [(tentative + manhattan nb goal, nb)]
        came_from := fun c => if c = nb then some current else st.came_from c
        g_score := setg st.g_score nb tentative }
    else st
  else st

/-- One frontier expansion of `a_star`: relax all four neighbors of the
popped cell. -/
def astarStep7 (n : Int) (maze : Cell → Nat) (goal current : Cell)
    (st : AState7) : AState7 :=
  dirs.foldl (relaxOne7 n maze goal current) st

/-- The `while open_list:` loop of `a_star`: pop the least entry; if it is
the goal, reconstruct (without appending `start`) and return the reversed
chain; otherwise add the popped cell to the closed list, expand, continue.
Returns `[]` when the frontier empties. -/
def astarLoop7 (n : Int) (maze : Cell → Nat) (goal : Cell)
    (s : AState7) : List Cell :=
  match h : popMin s.open_set with
  | none => []
  | some (e, rest) =>
    if e.2 = goal then
      (AStar.rebuild s.came_from (s.g_score.length + 1) goal []).reverse
    else
      astarLoop7 n maze goal
        (astarStep7 n maze goal e.2
          { s with open_set := rest, closed := s.closed ++ [e.2] })
termination_by sizeMeasure7 n s
decreasing_by
  simp only [sizeMeasure7]
  -- Facts about the association-list primitives, inlined here because the
  -- loop definition precedes the lemma sections of this file.
  have hlook_none : ∀ (g : List (Cell × Nat)) (c : Cell),
      lookupg g c = none → c ∉ keyset g := by
    intro g c hc
    induction g with
    | nil => simp [keyset]
    | cons p rest ih =>
      simp only [lookupg] at hc
      by_cases hpc : c = p.1
      · simp [hpc] at hc
      · simp only [keyset, List.map_cons, List.toFinset_cons, Finset.mem_insert]
        push_neg
        refine ⟨hpc, ?_⟩
        have := ih (by simpa [hpc] using hc)
        simpa [keyset] using this
  have hset_new : ∀ (g : List (Cell × Nat)) (c : Cell) (v : Nat),
      lookupg g c = none →
      (setg g c v).map Prod.fst = g.map Prod.fst ++ [c] ∧
        sumg (setg g c v) = sumg g + v := by
    intro g c v hc
    induction g with
    | nil => simp [setg, sumg]
    | cons p rest ih =>
      simp only [lookupg] at hc
      by_cases hpc : c = p.1
      · simp [hpc] at hc
      · have hp1 : ¬ (p.1 = c) := fun hh => hpc hh.symm
        have hrec := ih (by simpa [hpc] using hc)
        refine ⟨by simp [setg, hp1, hrec.1], ?_⟩
        simp only [setg, if_neg hp1, sumg, List.map_cons, List.sum_cons]
        have := hrec.2
        simp only [sumg] at this
        omega
  have hset_found : ∀ (g : List (Cell × Nat)) (c : Cell) (v w : Nat),
      lookupg g c = some w →
      (setg g c v).map Prod.fst = g.map Prod.fst ∧
        sumg (setg g c v) + w = sumg g + v := by
    intro g c v w hw
    induction g with
    | nil => simp [lookupg] at hw
    | cons p rest ih =>
      simp only [lookupg] at hw
      by_cases hpc : c = p.1
      · simp [hpc] at hw
        subst hw
        constructor
        · simp [setg, hpc]
        · simp [setg, hpc, sumg]
          omega
      · have hrec := ih (by simpa [hpc] using hw)
        have hp1 : ¬ (p.1 = c) := fun hh => hpc hh.symm
        constructor
        · simp [setg, hp1, hrec.1]
        · simp only [setg, if_neg hp1, sumg, List.map_cons, List.sum_cons]
          have := hrec.2
          simp only [sumg] at this
          omega
  -- Single relaxation: either the state is unchanged, or the unset-key count
  -- strictly drops, or it is unchanged while the g-mass strictly drops.
  set B := Finset.Ico (0 : Int) n ×ˢ Finset.Ico (0 : Int) n with hB
  have hone : ∀ (st : AState7) (d : Int × Int),
      relaxOne7 n maze goal e.2 st d = st ∨
      ((B \ keyset (relaxOne7 n maze goal e.2 st d).g_score).card <
        (B \ keyset st.g_score).card) ∨
      ((B \ keyset (relaxOne7 n maze goal e.2 st d).g_score).card =
          (B \ keyset st.g_score).card ∧
        sumg (relaxOne7 n maze goal e.2 st d).g_score < sumg st.g_score) := by
    intro st d
    by_cases hguard : 0 ≤ e.2.1 + d.1 ∧ e.2.1 + d.1 < n ∧ 0 ≤ e.2.2 + d.2 ∧
        e.2.2 + d.2 < n ∧ maze (e.2.1 + d.1, e.2.2 + d.2) ≠ 2 ∧
        (e.2.1 + d.1, e.2.2 + d.2) ∉ st.closed
    · set nb : Cell := (e.2.1 + d.1, e.2.2 + d.2) with hnb
      set t := (lookupg st.g_score e.2).getD 0 + 1 with ht
      cases hl : lookupg st.g_score nb with
      | none =>
        have hrw : relaxOne7 n maze goal e.2 st d =
            { st with
              open_set := st.open_set ++ [(t + manhattan nb goal, nb)]
              came_from := fun c => if c = nb then some e.2 else st.came_from c
              g_score := setg st.g_score nb t } := by
          simp [relaxOne7, ← hnb, hguard, hl, ← ht]
        rw [hrw]
        right; left
        have hnotin : nb ∉ keyset st.g_score := hlook_none _ _ hl
        have hkeys :
            keyset (setg st.g_score nb t) = insert nb (keyset st.g_score) := by
          have h1 := (hset_new st.g_score nb t hl).1
          simp only [keyset, h1, List.toFinset_append]
          rw [Finset.insert_eq]
          simp [Finset.union_comm]
        simp only [hkeys]
        apply Finset.card_lt_card
        constructor
        · intro x hx
          simp only [Finset.mem_sdiff, Finset.mem_insert] at hx ⊢
          exact ⟨hx.1, fun hxk => hx.2 (Or.inr hxk)⟩
        · intro hsub
          have hnbB : nb ∈ B := by
            rw [hB]
            simp only [Finset.mem_product, Finset.mem_Ico]
            exact ⟨⟨hguard.1, hguard.2.1⟩, ⟨hguard.2.2.1, hguard.2.2.2.1⟩⟩
          have h1 : nb ∈ B \ keyset st.g_score := by
            simp [Finset.mem_sdiff, hnbB, hnotin]
          have h2 := hsub h1
          simp [Finset.mem_sdiff] at h2
      | some v =>
        by_cases hlt : t < v
        · have hrw : relaxOne7 n maze goal e.2 st d =
              { st with
                open_set := st.open_set ++ [(t + manhattan nb goal, nb)]
                came_from := fun c => if c = nb then some e.2 else st.came_from c
                g_score := setg st.g_score nb t } := by
            simp [relaxOne7, ← hnb, hguard, hl, ← ht, hlt]
          rw [hrw]
          right; right
          dsimp only
          have hf := hset_found st.g_score nb t v hl
          constructor
          · simp [keyset, hf.1]
          · have := hf.2
            omega
        · left
          simp [relaxOne7, ← hnb, hguard, hl, ← ht, hlt]
    · left
      simp [relaxOne7, hguard]
  -- Chain the four relaxations.
  have hchain : ∀ (ds : List (Int × Int)) (st : AState7),
      (ds.foldl (relaxOne7 n maze goal e.2) st = st) ∨
      ((B \ keyset (ds.foldl (relaxOne7 n maze goal e.2) st).g_score).card <
        (B \ keyset st.g_score).card) ∨
      ((B \ keyset (ds.foldl (relaxOne7 n maze goal e.2) st).g_score).card =
          (B \ keyset st.g_score).card ∧
        sumg (ds.foldl (relaxOne7 n maze goal e.2) st).g_score < sumg st.g_score) := by
    intro ds
    induction ds with
    | nil => intro st; left; rfl
    | cons d ds ih =>
      intro st
      simp only [List.foldl_cons]
      rcases hone st d with h1 | h1 | h1
      · rw [h1]; exact ih st
      · rcases ih (relaxOne7 n maze goal e.2 st d) with h2 | h2 | h2
        · rw [h2]; right; left; exact h1
        · right; left; exact lt_trans h2 h1
        · right; left; omega
      · rcases ih (relaxOne7 n maze goal e.2 st d) with h2 | h2 | h2
        · rw [h2]; right; right; exact h1
        · right; left; omega
        · right; right; constructor
          · omega
          · exact lt_trans h2.2 h1.2
  -- The popped entry shrinks the heap.
  have hmem : ∀ (x : Nat × Cell) (xs : List (Nat × Cell)), minEntry x xs ∈ x :: xs := by
    intro x xs
    induction xs generalizing x with
    | nil => simp [minEntry]
    | cons y ys ih =>
      simp only [minEntry]
      by_cases hxy : entryLt y x
      · simp only [if_pos hxy]
        have := ih y
        rcases List.mem_cons.mp this with h | h
        · rw [h]; simp
        · simp [h]
      · simp only [if_neg hxy]
        have := ih x
        rcases List.mem_cons.mp this with h | h
        · rw [h]; simp
        · simp [h]
  have hlen_ef : ∀ (l : List (Nat × Cell)) (a : Nat × Cell), a ∈ l →
      (eraseFirst l a).length + 1 = l.length := by
    intro l a hal
    induction l with
    | nil => simp at hal
    | cons x xs ih =>
      by_cases hxa : x = a
      · simp [eraseFirst, hxa]
      · rcases List.mem_cons.mp hal with h1 | h1
        · exact absurd h1.symm hxa
        · simp [eraseFirst, hxa, ← ih h1]
  have hrest : rest.length < s.open_set.length := by
    rcases hl : s.open_set with _ | ⟨x, xs⟩
    · rw [hl] at h; simp [popMin] at h
    · rw [hl] at h
      simp only [popMin, Option.some.injEq, Prod.mk.injEq] at h
      have hre : rest = eraseFirst (x :: xs) (minEntry x xs) := h.2.symm
      have hm : minEntry x xs ∈ x :: xs := hmem x xs
      have := hlen_ef (x :: xs) (minEntry x xs) hm
      rw [hre]
      omega
  -- Assemble the lexicographic decrease.
  rcases hchain dirs { s with open_set := rest, closed := s.closed ++ [e.2] }
    with hc | hc | hc
  · rw [astarStep7, hc]
    apply Prod.Lex.right
    apply Prod.Lex.right
    exact hrest
  · exact Prod.Lex.left _ _ hc
  · rw [astarStep7]
    have h1 : (B \ keyset (dirs.foldl (relaxOne7 n maze goal e.2)
        { s with open_set := rest, closed := s.closed ++ [e.2] }).g_score).card =
        (B \ keyset s.g_score).card := hc.1
    rw [h1]
    apply Prod.Lex.right
    exact Prod.Lex.left _ _ hc.2

/-- The initial search state of `a_star`: heap `[(f_score[start], start)]`
with `f_score[start] = heuristic(start, goal)`, empty predecessor dict,
`g_score = {start: 0}`, empty closed list. -/
def initState7 (start goal : Cell) : AState7 :=
  { open_set := [(manhattan start goal, start)]
    came_from := fun _ => none
    g_score := [(start, 0)]
    closed := [] }

/-- `NPC.a_star(start, goal)` of `Game7.py`, parameterized by the grid size
`n` (the module-level `GRID_SIZE`) and the module-level `maze`. -/
def a_star (n : Int) (maze : Cell → Nat) (start goal : Cell) : List Cell :=
  astarLoop7 n maze goal (initState7 start goal)

/-- The predecessor-chain invariant of the `a_star` search state: the start
is scored 0 with no predecessor, every heap entry carries the start or a
scored cell, and every scored non-start cell has a scored predecessor of
strictly smaller g-score. -/
def InvBase7 (start : Cell) (s : AState7) : Prop :=
  lookupg s.g_score start = some 0 ∧
  s.came_from start = none ∧
  (∀ f c, (f, c) ∈ s.open_set → c = start ∨ ∃ v, lookupg s.g_score c = some v) ∧
  (∀ c v, lookupg s.g_score c = some v → c ≠ start →
      ∃ p vp, s.came_from c = some p ∧ lookupg s.g_score p = some vp ∧ vp + 1 ≤ v)

end Game7

/-! ## game11.py: the A*-hybrid incremental update -/

namespace Game11

/-- State of `game11.py`'s `NPC`: the greedy planner state plus an A* open
list (a heap of `(f, cell)` entries) and closed list (a Python set, embedded
as a list queried only for membership).  The `print` calls of this variant are
not modeled; no claim concerns them. -/
structure NPC where
  position : Cell
  previous_position : Option Cell
  goal : Cell
  path : List Cell
  visited : List Cell
  fsm : NPCState
  cell_costs : Cell → Nat
  open_list : List (Nat × Cell)
  closed_list : List Cell

/-- `NPC.__init__(start, goal)` of `game11.py`. -/
def NPC.init (start goal : Cell) : NPC :=
  { position := start
    previous_position := none
    goal := goal
    path := [start]
    visited := []
    fsm := NPCState.MOVING
    cell_costs := fun _ => 0
    open_list := []
    closed_list := [] }

/-- `NPC.heuristic` of `game11.py`: Manhattan distance plus
`self.cell_costs.get(a, 0)`. -/
def heuristic (costs : Cell → Nat) (a b : Cell) : Nat := manhattan a b + costs a

/-- `NPC.backtrack` of `game11.py`, identical to `game10.py`'s. -/
def NPC.backtrack (s : NPC) : NPC :=
  if 1 < s.path.length then
    let p := s.path.dropLast
    { s with path := p, position := p.getLastD s.position }
  else s

/-- The body of `game11.py`'s neighbor loop: skip closed cells, push
`(g + h, neighbor)`, append the neighbor to the path, move the position onto
it and bump its cost — all inside one tick's `for` loop. -/
def expandOne (s : NPC) (nb : Cell) : NPC :=
  if nb ∈ s.closed_list then s
  else
    let g := s.cell_costs nb
    let h := heuristic s.cell_costs nb s.goal
    { s with
      open_list := s.open_list ++ [(g + h, nb)]
      path := s.path ++ [nb]
      position := nb
      cell_costs := fun c => if c = nb then s.cell_costs nb + 1 else s.cell_costs c }

/-- `NPC.update()` of `game11.py`. -/
def NPC.update (W H : Int) (maze : Cell → Nat) (s : NPC) : NPC :=
  if s.fsm ≠ NPCState.MOVING then s
  else
    let s1 : NPC := { s with visited := s.visited ++ [s.position] }
    if s1.position = s1.goal then { s1 with fsm := NPCState.GOAL_REACHED }
    else
      let s2 : NPC :=
        if s1.open_list.isEmpty then
          { s1 with open_list := s1.open_list ++ [(0, s1.position)] }
        else s1
      let s3 : NPC :=
        match popMin s2.open_list with
        | none => s2
        | some (e, rest) =>
          let cur := e.2
          let s2' : NPC :=
            { s2 with open_list := rest, closed_list := s2.closed_list ++ [cur] }
          (neighborsOf W H maze cur).foldl expandOne s2'
      if s3.open_list.isEmpty then NPC.backtrack s3 else s3

end Game11

/-! # Theorems

## Basic facts about the shared primitives -/

theorem adj_of_mem_dirs {pos : Cell} {d : Int × Int} (hd : d ∈ dirs) :
    Adj pos (pos.1 + d.1, pos.2 + d.2) := by
  unfold Adj
  simpa using hd

theorem mem_neighborsOf {W H : Int} {maze : Cell → Nat} {pos c : Cell} :
    c ∈ neighborsOf W H maze pos ↔
      (∃ d ∈ dirs, c = (pos.1 + d.1, pos.2 + d.2)) ∧ OpenCell W H maze c := by
  unfold neighborsOf OpenCell
  simp only [List.mem_filterMap]
  constructor
  · rintro ⟨d, hd, hc⟩
    by_cases hg : 0 ≤ pos.1 + d.1 ∧ pos.1 + d.1 < W ∧ 0 ≤ pos.2 + d.2 ∧
        pos.2 + d.2 < H ∧ maze (pos.1 + d.1, pos.2 + d.2) = 0
    · simp only [if_pos hg, Option.some.injEq] at hc
      subst hc
      exact ⟨⟨d, hd, rfl⟩, hg⟩
    · simp [if_neg hg] at hc
  · rintro ⟨⟨d, hd, hc⟩, hopen⟩
    refine ⟨d, hd, ?_⟩
    subst hc
    simp [if_pos hopen]

theorem adj_of_mem_neighborsOf {W H : Int} {maze : Cell → Nat} {pos c : Cell}
    (h : c ∈ neighborsOf W H maze pos) : Adj pos c := by
  obtain ⟨⟨d, hd, hc⟩, -⟩ := mem_neighborsOf.mp h
  subst hc
  exact adj_of_mem_dirs hd

theorem open_of_mem_neighborsOf {W H : Int} {maze : Cell → Nat} {pos c : Cell}
    (h : c ∈ neighborsOf W H maze pos) : OpenCell W H maze c :=
  (mem_neighborsOf.mp h).2

theorem mem_OpenCells {W H : Int} {maze : Cell → Nat} {c : Cell} :
    c ∈ OpenCells W H maze ↔ OpenCell W H maze c := by
  unfold OpenCells OpenCell
  simp only [Finset.mem_filter, Finset.mem_product, Finset.mem_Ico]
  tauto

/-- Characterization of Python's `min(l, key=f)`: the result splits the list
into a strict-prefix on which `f` is strictly larger and a suffix on which it
is at least as large — i.e. the first element attaining the minimum. -/
theorem argminKey_spec {f : Cell → Nat} {l : List Cell} {c : Cell}
    (h : argminKey f l = some c) :
    ∃ l₁ l₂, l = l₁ ++ c :: l₂ ∧ (∀ y ∈ l₁, f c < f y) ∧ ∀ y ∈ l₂, f c ≤ f y := by
  match l with
  | [] => simp [argminKey] at h
  | x :: xs =>
    simp only [argminKey, Option.some.injEq] at h
    induction xs generalizing x with
    | nil =>
      simp only [List.foldl_nil] at h
      exact ⟨[], [], by simp [h], by simp, by simp⟩
    | cons z zs ih =>
      simp only [List.foldl_cons] at h
      by_cases hzx : f z < f x
      · rw [if_pos hzx] at h
        obtain ⟨l₁, l₂, hsplit, hstrict, hle⟩ := ih z h
        have hcz : f c ≤ f z := by
          have hz : z ∈ l₁ ++ c :: l₂ := by rw [← hsplit]; simp
          rcases List.mem_append.mp hz with hz | hz
          · exact le_of_lt (hstrict _ hz)
          · rcases List.mem_cons.mp hz with hz | hz
            · rw [hz]
            · exact hle _ hz
        exact ⟨x :: l₁, l₂, by simp [hsplit], by
          intro y hy
          rcases List.mem_cons.mp hy with hy | hy
          · subst hy; exact lt_of_le_of_lt hcz hzx
          · exact hstrict _ hy, hle⟩
      · rw [if_neg hzx] at h
        obtain ⟨l₁, l₂, hsplit, hstrict, hle⟩ := ih x h
        match l₁, hsplit with
        | [], hsplit =>
          have hcx : c = x := by simpa using congrArg (List.headI) hsplit.symm
          have hzs : zs = l₂ := by simpa [hcx] using hsplit
          refine ⟨[], z :: l₂, by rw [hzs, ← hcx]; simp, by simp, ?_⟩
          intro y hy
          rcases List.mem_cons.mp hy with hy | hy
          · subst hy; rw [hcx]; omega
          · exact hle _ hy
        | w :: l₁', hsplit =>
          have hwx : w = x := by simpa using congrArg (List.headI) hsplit.symm
          have hzs : zs = l₁' ++ c :: l₂ := by simpa [hwx] using hsplit
          have hcx : f c < f x := hstrict _ (by simp [hwx])
          refine ⟨x :: z :: l₁', l₂, by simp [hzs], ?_, hle⟩
          intro y hy
          rcases List.mem_cons.mp hy with hy | hy
          · subst hy; exact hcx
          · rcases List.mem_cons.mp hy with hy | hy
            · subst hy; omega
            · exact hstrict _ (by simp [hy])

theorem argminKey_isNone {f : Cell → Nat} {l : List Cell} :
    argminKey f l = none ↔ l = [] := by
  cases l <;> simp [argminKey]

theorem argminKey_mem {f : Cell → Nat} {l : List Cell} {c : Cell}
    (h : argminKey f l = some c) : c ∈ l := by
  obtain ⟨l₁, l₂, hsplit, -, -⟩ := argminKey_spec h
  rw [hsplit]; simp

theorem argminKey_le {f : Cell → Nat} {l : List Cell} {c : Cell}
    (h : argminKey f l = some c) : ∀ y ∈ l, f c ≤ f y := by
  obtain ⟨l₁, l₂, hsplit, hstrict, hle⟩ := argminKey_spec h
  intro y hy
  rw [hsplit] at hy
  rcases List.mem_append.mp hy with hy | hy
  · exact le_of_lt (hstrict _ hy)
  · rcases List.mem_cons.mp hy with hy | hy
    · rw [hy]
    · exact hle _ hy

/-! ## Shape lemmas for game10.py's NPC.update -/

namespace Game10

/-- Abbreviation for the state right after `self.visited.append(current)`. -/
def NPC.mark (s : NPC) : NPC := { s with visited := s.visited ++ [s.position] }

theorem update_not_moving {W H : Int} {maze : Cell → Nat} {s : NPC} {b : List Cell}
    (h : s.fsm ≠ NPCState.MOVING) : NPC.update W H maze s b = s := by
  simp [NPC.update, h]

theorem update_at_goal {W H : Int} {maze : Cell → Nat} {s : NPC} {b : List Cell}
    (hm : s.fsm = NPCState.MOVING) (hg : s.position = s.goal) :
    NPC.update W H maze s b = { s.mark with fsm := NPCState.GOAL_REACHED } := by
  simp [NPC.update, NPC.mark, hm, hg]

theorem update_no_neighbors {W H : Int} {maze : Cell → Nat} {s : NPC} {b : List Cell}
    (hm : s.fsm = NPCState.MOVING) (hg : s.position ≠ s.goal)
    (hc : chooseNext W H maze s.position s.goal s.cell_costs b = none) :
    NPC.update W H maze s b =
      NPC.backtrack { s.mark with out := s.out ++ [Msg.noNeighbors] } := by
  simp [NPC.update, NPC.mark, hm, hg, hc]

theorem update_revisit {W H : Int} {maze : Cell → Nat} {s : NPC} {b : List Cell}
    {nx : Cell} (hm : s.fsm = NPCState.MOVING) (hg : s.position ≠ s.goal)
    (hc : chooseNext W H maze s.position s.goal s.cell_costs b = some nx)
    (hv : nx ∈ s.visited ++ [s.position]) :
    NPC.update W H maze s b =
      NPC.backtrack { s.mark with out := s.out ++ [Msg.revisit] } := by
  simp [NPC.update, NPC.mark, hm, hg, hc, hv]

theorem update_move {W H : Int} {maze : Cell → Nat} {s : NPC} {b : List Cell}
    {nx : Cell} (hm : s.fsm = NPCState.MOVING) (hg : s.position ≠ s.goal)
    (hc : chooseNext W H maze s.position s.goal s.cell_costs b = some nx)
    (hv : nx ∉ s.visited ++ [s.position]) :
    NPC.update W H maze s b = NPC.moveTo s.mark nx := by
  simp [NPC.update, NPC.mark, hm, hg, hc, hv]

theorem backtrack_pop {s : NPC} (h : 1 < s.path.length) :
    NPC.backtrack s =
      { s with path := s.path.dropLast,
               position := s.path.dropLast.getLastD s.position } := by
  simp [NPC.backtrack, h]

theorem backtrack_stuck {s : NPC} (h : ¬ 1 < s.path.length) :
    NPC.backtrack s = { s with out := s.out ++ [Msg.stuck] } := by
  simp [NPC.backtrack, h]

/-- Members of a tick's viable-neighbor list are open cells. -/
theorem viable_open {W H : Int} {maze : Cell → Nat} {pos : Cell}
    {b : List Cell} {c : Cell} (h : c ∈ viable W H maze pos b) :
    OpenCell W H maze c := by
  unfold viable at h
  exact open_of_mem_neighborsOf (List.mem_filter.mp h).1

theorem viable_adj {W H : Int} {maze : Cell → Nat} {pos : Cell}
    {b : List Cell} {c : Cell} (h : c ∈ viable W H maze pos b) : Adj pos c := by
  unfold viable at h
  exact adj_of_mem_neighborsOf (List.mem_filter.mp h).1

theorem chooseNext_mem {W H : Int} {maze : Cell → Nat} {pos g : Cell}
    {costs : Cell → Nat} {b : List Cell} {nx : Cell}
    (h : chooseNext W H maze pos g costs b = some nx) :
    nx ∈ viable W H maze pos b :=
  argminKey_mem h

/-- Every `NPC.update` tick is one of: a non-moving no-op, the goal check
firing, a backtracking tick (no viable neighbor, or the chosen neighbor was
already visited), or a single committed move. -/
theorem update_disj (W H : Int) (maze : Cell → Nat) (s : NPC) (b : List Cell) :
    (s.fsm ≠ NPCState.MOVING ∧ NPC.update W H maze s b = s) ∨
    (s.fsm = NPCState.MOVING ∧ s.position = s.goal ∧
      NPC.update W H maze s b = { s.mark with fsm := NPCState.GOAL_REACHED }) ∨
    (s.fsm = NPCState.MOVING ∧ s.position ≠ s.goal ∧
      ∃ m, (m = Msg.noNeighbors ∨ m = Msg.revisit) ∧
        NPC.update W H maze s b =
          NPC.backtrack { s.mark with out := s.out ++ [m] }) ∨
    (s.fsm = NPCState.MOVING ∧ s.position ≠ s.goal ∧
      ∃ nx, chooseNext W H maze s.position s.goal s.cell_costs b = some nx ∧
        nx ∉ s.visited ++ [s.position] ∧
        NPC.update W H maze s b = NPC.moveTo s.mark nx) := by
  by_cases hm : s.fsm = NPCState.MOVING
  · by_cases hg : s.position = s.goal
    · exact Or.inr (Or.inl ⟨hm, hg, update_at_goal hm hg⟩)
    · cases hc : chooseNext W H maze s.position s.goal s.cell_costs b with
      | none =>
        refine Or.inr (Or.inr (Or.inl ⟨hm, hg, Msg.noNeighbors, Or.inl rfl, ?_⟩))
        have := update_no_neighbors hm hg hc
        simpa [NPC.mark] using this
      | some nx =>
        by_cases hv : nx ∈ s.visited ++ [s.position]
        · refine Or.inr (Or.inr (Or.inl ⟨hm, hg, Msg.revisit, Or.inr rfl, ?_⟩))
          have := update_revisit hm hg hc hv
          simpa [NPC.mark] using this
        · exact Or.inr (Or.inr (Or.inr ⟨hm, hg, nx, rfl, hv, update_move hm hg hc hv⟩))
  · exact Or.inl ⟨hm, update_not_moving hm⟩

end Game10

/-! ## List helpers -/

theorem head?_dropLast {α : Type} (l : List α) (h : 1 < l.length) :
    l.dropLast.head? = l.head? := by
  match l, h with
  | a :: b :: t, _ => simp [List.dropLast]

theorem head?_append_left {α : Type} (l l' : List α) (h : l ≠ []) :
    (l ++ l').head? = l.head? := by
  cases l with
  | nil => exact absurd rfl h
  | cons a t => simp

theorem dropLast_ne_nil {α : Type} (l : List α) (h : 1 < l.length) :
    l.dropLast ≠ [] := by
  have : l.dropLast.length = l.length - 1 := List.length_dropLast l
  intro hc
  rw [hc] at this
  simp at this
  omega

theorem getLastD_mem {α : Type} (l : List α) (d : α) (h : l ≠ []) :
    l.getLastD d ∈ l := by
  induction l generalizing d with
  | nil => exact absurd rfl h
  | cons a t ih =>
    rw [List.getLastD_cons]
    cases t with
    | nil => simp
    | cons b u => exact List.mem_cons_of_mem a (ih a (by simp))

/-! ## C4: the path-crossing scenario -/

/-- Claim C4 as stated is false: with the agent at `(5,6)` having come from
`(5,5)` and the barrier now at `(5,5)`, `check_collision` computes the
barrier's previous cell as `(5,4)` (barriers move downward in the code), so
the path-crossing rule does not fire and the check returns `false`. -/
theorem c4_counterexample :
    check_collision [((5 : Int), (5 : Int))] (5, 6) (some (5, 5)) = false := by
  decide

/-- C4 (amended): the swap the code detects is the downward one: if the agent
moves from `(5,6)` to `(5,5)` while a barrier moves from `(5,5)` to `(5,6)`
in the same tick, `check_collision` called with agent position `(5,5)`,
previous position `(5,6)` and the barrier now at `(5,6)` returns `true` via
the path-crossing rule, even though the final positions do not coincide. -/
theorem c4_amended_swap_detected :
    check_collision [((5 : Int), (6 : Int))] (5, 5) (some (5, 6)) = true := by
  decide

/-! ## C7: one committed step per tick -/

/-- Claim C7 as stated is false for `game11.py`'s planner: from its initial
state on an all-open 20×20 grid, the very first `NPC.update` call appends two
cells to the path (it moves the position once per relaxed neighbor inside the
A* expansion loop), so a single tick commits two speculative moves instead of
at most one. -/
theorem c7_counterexample :
    (Game11.NPC.update 20 20 (fun _ => 0)
        (Game11.NPC.init ((0 : Int), (0 : Int)) (19, 19))).path =
      [((0 : Int), (0 : Int))] ++ [(1, 0), (0, 1)] := by
  decide

/-- C7 (amended): for the greedy incremental planner of `game10.py`, each
`NPC.update` tick changes the path and position at most once: either both are
unchanged, or exactly one 4-adjacent cell is appended and becomes the
position (one committed greedy step), or the path is popped once and the
position becomes the new path tail (one backtrack step).  `game11.py`'s
A*-hybrid update does not satisfy this (see the counterexample). -/
theorem c7_amended_single_step (W H : Int) (maze : Cell → Nat)
    (s : Game10.NPC) (b : List Cell) :
    ((Game10.NPC.update W H maze s b).path = s.path ∧
      (Game10.NPC.update W H maze s b).position = s.position) ∨
    (∃ nx, Adj s.position nx ∧
      (Game10.NPC.update W H maze s b).path = s.path ++ [nx] ∧
      (Game10.NPC.update W H maze s b).position = nx) ∨
    (1 < s.path.length ∧
      (Game10.NPC.update W H maze s b).path = s.path.dropLast ∧
      (Game10.NPC.update W H maze s b).position =
        s.path.dropLast.getLastD s.position) := by
  rcases Game10.update_disj W H maze s b with ⟨-, hu⟩ | ⟨-, -, hu⟩ |
    ⟨-, -, m, -, hu⟩ | ⟨-, -, nx, hc, hv, hu⟩
  · left; rw [hu]; exact ⟨rfl, rfl⟩
  · left; rw [hu]; exact ⟨rfl, rfl⟩
  · by_cases hl : 1 < s.path.length
    · right; right
      rw [hu, Game10.backtrack_pop (by simpa [Game10.NPC.mark] using hl)]
      exact ⟨hl, rfl, rfl⟩
    · left
      rw [hu, Game10.backtrack_stuck (by simpa [Game10.NPC.mark] using hl)]
      exact ⟨rfl, rfl⟩
  · right; left
    refine ⟨nx, Game10.viable_adj (Game10.chooseNext_mem hc), ?_, ?_⟩ <;>
      rw [hu] <;> rfl

/-! ## C8: the stuck condition -/

/-- Claim C8 as stated is false: on a tick with no viable neighbor and a
single-element path, `game10.py`'s planner leaves position and path unchanged
as claimed, but it surfaces no inspectable terminal value — the FSM stays
`MOVING` and the only effect is the printed "No valid neighbors …" /
"No path to backtrack. Stuck!" messages (recorded on the output channel of
the embedding). -/
theorem c8_counterexample :
    (Game10.NPC.update 2 2 (fun c => if c = ((0 : Int), (0 : Int)) then 0 else 1)
        (Game10.NPC.init (0, 0) (1, 1)) []).fsm = NPCState.MOVING ∧
    (Game10.NPC.update 2 2 (fun c => if c = ((0 : Int), (0 : Int)) then 0 else 1)
        (Game10.NPC.init (0, 0) (1, 1)) []).position = (0, 0) ∧
    (Game10.NPC.update 2 2 (fun c => if c = ((0 : Int), (0 : Int)) then 0 else 1)
        (Game10.NPC.init (0, 0) (1, 1)) []).path = [(0, 0)] ∧
    (Game10.NPC.update 2 2 (fun c => if c = ((0 : Int), (0 : Int)) then 0 else 1)
        (Game10.NPC.init (0, 0) (1, 1)) []).out =
      [Msg.noNeighbors, Msg.stuck] := by
  decide

/-- C8 (amended): when the planner finds no viable neighbor it pops the last
cell off the path and moves the position to the new last element; when the
path has exactly one element it instead reports the stuck condition only by
printing (appending the "no valid neighbors" and "stuck" messages), leaving
position, path and FSM state unchanged — no inspectable `Stuck` value is
produced. -/
theorem c8_amended_backtrack_or_print (W H : Int) (maze : Cell → Nat)
    (s : Game10.NPC) (b : List Cell) (hm : s.fsm = NPCState.MOVING)
    (hg : s.position ≠ s.goal)
    (hc : Game10.chooseNext W H maze s.position s.goal s.cell_costs b = none) :
    (1 < s.path.length →
      (Game10.NPC.update W H maze s b).path = s.path.dropLast ∧
      (Game10.NPC.update W H maze s b).position =
        s.path.dropLast.getLastD s.position ∧
      (Game10.NPC.update W H maze s b).fsm = NPCState.MOVING ∧
      (Game10.NPC.update W H maze s b).out = s.out ++ [Msg.noNeighbors]) ∧
    (s.path.length ≤ 1 →
      (Game10.NPC.update W H maze s b).path = s.path ∧
      (Game10.NPC.update W H maze s b).position = s.position ∧
      (Game10.NPC.update W H maze s b).fsm = NPCState.MOVING ∧
      (Game10.NPC.update W H maze s b).out =
        s.out ++ [Msg.noNeighbors, Msg.stuck]) := by
  have hu := Game10.update_no_neighbors hm hg hc
  constructor
  · intro hl
    rw [hu, Game10.backtrack_pop (by simpa [Game10.NPC.mark] using hl)]
    exact ⟨rfl, rfl, hm, rfl⟩
  · intro hl
    rw [hu, Game10.backtrack_stuck (by simp [Game10.NPC.mark]; omega)]
    refine ⟨rfl, rfl, hm, by simp [Game10.NPC.mark]⟩

/-! ## C10: the path never loses its start -/

/-- One tick preserves non-emptiness of the path and its head. -/
theorem g10_step_path (W H : Int) (maze : Cell → Nat) {start : Cell}
    (s : Game10.NPC) (b : List Cell) (h1 : s.path ≠ [])
    (h2 : s.path.head? = some start) :
    (Game10.NPC.update W H maze s b).path ≠ [] ∧
    (Game10.NPC.update W H maze s b).path.head? = some start := by
  rcases Game10.update_disj W H maze s b with ⟨-, hu⟩ | ⟨-, -, hu⟩ |
    ⟨-, -, m, -, hu⟩ | ⟨-, -, nx, -, -, hu⟩
  · rw [hu]; exact ⟨h1, h2⟩
  · rw [hu]; exact ⟨h1, h2⟩
  · by_cases hl : 1 < s.path.length
    · rw [hu, Game10.backtrack_pop (by simpa [Game10.NPC.mark] using hl)]
      dsimp only [Game10.NPC.mark]
      exact ⟨dropLast_ne_nil _ hl, by rw [head?_dropLast _ hl]; exact h2⟩
    · rw [hu, Game10.backtrack_stuck (by simpa [Game10.NPC.mark] using hl)]
      exact ⟨h1, h2⟩
  · rw [hu]
    dsimp only [Game10.NPC.moveTo, Game10.NPC.mark]
    exact ⟨by simp, by rw [head?_append_left _ _ h1]; exact h2⟩

/-- Tick iteration preserves the path invariant. -/
theorem g10_runFrom_path {W H : Int} {maze : Cell → Nat} {start : Cell}
    (k : Nat) (bs : Nat → List Cell) (s : Game10.NPC) (h1 : s.path ≠ [])
    (h2 : s.path.head? = some start) :
    (Game10.runFrom W H maze bs k s).path ≠ [] ∧
    (Game10.runFrom W H maze bs k s).path.head? = some start := by
  induction k generalizing bs s with
  | zero => exact ⟨h1, h2⟩
  | succ k ih =>
    have hstep := g10_step_path W H maze s (bs 0) h1 h2
    exact ih (fun i => bs (i + 1)) _ hstep.1 hstep.2

/-- Claim C10: in the incremental planner the path list is always non-empty
and its first element is the episode's start cell — initialization sets
`path = [start]`, every committed move appends exactly one cell, and
backtrack pops only when the length exceeds one, so the `path[-1]` accesses
are always well-defined and an episode's path never loses its start. -/
theorem c10_path_invariant (W H : Int) (maze : Cell → Nat) (start goal : Cell)
    (bs : Nat → List Cell) (k : Nat) :
    (Game10.run W H maze start goal bs k).path ≠ [] ∧
    (Game10.run W H maze start goal bs k).path.head? = some start :=
  g10_runFrom_path k bs (Game10.NPC.init start goal) (by simp [Game10.NPC.init])
    (by simp [Game10.NPC.init])

/-! ## C6: the greedy selection rule -/

/-- Claim C6: on every tick with a non-empty viable-neighbor list the planner
selects the neighbor minimizing `Manhattan(n, goal) + CostMap.get(n, 0)`,
ties broken by the enumeration order of the offset list left, right, up,
down (the viable list is the offset-ordered neighbor list filtered by
barriers, and the selected cell is the first element attaining the minimum);
whenever the selected neighbor is unvisited, the tick commits the move onto
it. -/
theorem c6_greedy_selection (W H : Int) (maze : Cell → Nat) (s : Game10.NPC)
    (b : List Cell) (hv : Game10.viable W H maze s.position b ≠ []) :
    ∃ nx, Game10.chooseNext W H maze s.position s.goal s.cell_costs b = some nx ∧
      nx ∈ Game10.viable W H maze s.position b ∧
      (∀ y ∈ Game10.viable W H maze s.position b,
        manhattan nx s.goal + s.cell_costs nx ≤ manhattan y s.goal + s.cell_costs y) ∧
      (∃ l₁ l₂, Game10.viable W H maze s.position b = l₁ ++ nx :: l₂ ∧
        (∀ y ∈ l₁,
          manhattan nx s.goal + s.cell_costs nx < manhattan y s.goal + s.cell_costs y) ∧
        (∀ y ∈ l₂,
          manhattan nx s.goal + s.cell_costs nx ≤ manhattan y s.goal + s.cell_costs y)) ∧
      (nx ∉ s.visited ++ [s.position] → s.fsm = NPCState.MOVING →
        s.position ≠ s.goal →
        Game10.NPC.update W H maze s b = Game10.NPC.moveTo s.mark nx) := by
  obtain ⟨nx, hnx⟩ : ∃ nx,
      Game10.chooseNext W H maze s.position s.goal s.cell_costs b = some nx := by
    cases hl : Game10.viable W H maze s.position b with
    | nil => exact absurd hl hv
    | cons x xs =>
      refine ⟨xs.foldl (fun best n =>
        if Game10.heuristic s.cell_costs n s.goal <
            Game10.heuristic s.cell_costs best s.goal then n else best) x, ?_⟩
      simp [Game10.chooseNext, hl, argminKey]
  refine ⟨nx, hnx, Game10.chooseNext_mem hnx, argminKey_le hnx, ?_, ?_⟩
  · exact argminKey_spec hnx
  · intro hnv hm hg
    exact Game10.update_move hm hg hnx hnv

/-- Witness for C6 on a concrete tick: an all-open 20×20 grid, agent at
`(5, 5)`, goal `(0, 0)`, no barriers. -/
theorem c6_witness :
    Game10.viable 20 20 (fun _ => 0) (5, 5) [] ≠ [] ∧
    ∃ nx, Game10.chooseNext 20 20 (fun _ => 0) (5, 5)
        (Game10.NPC.init ((5 : Int), (5 : Int)) (0, 0)).goal
        (Game10.NPC.init ((5 : Int), (5 : Int)) (0, 0)).cell_costs [] = some nx ∧
      nx ∈ Game10.viable 20 20 (fun _ => 0) (5, 5) [] ∧
      (∀ y ∈ Game10.viable 20 20 (fun _ => 0) (5, 5) [],
        manhattan nx (0, 0) +
            (Game10.NPC.init ((5 : Int), (5 : Int)) (0, 0)).cell_costs nx ≤
          manhattan y (0, 0) +
            (Game10.NPC.init ((5 : Int), (5 : Int)) (0, 0)).cell_costs y) := by
  have h := c6_greedy_selection 20 20 (fun _ => 0)
    (Game10.NPC.init ((5 : Int), (5 : Int)) (0, 0)) [] (by decide)
  obtain ⟨nx, h1, h2, h3, -, -⟩ := h
  exact ⟨by decide, nx, h1, h2, h3⟩

/-! ## C2: the 2·|Open| termination bound -/

theorem getLast?_eq_getLastD {α : Type} (l : List α) (d : α) (h : l ≠ []) :
    l.getLast? = some (l.getLastD d) := by
  cases l with
  | nil => exact absurd rfl h
  | cons a t =>
    rw [List.getLastD_eq_getLast?]
    obtain ⟨x, hx⟩ := Option.isSome_iff_exists.mp
      (by rw [List.getLast?_isSome]; simp : (a :: t).getLast?.isSome)
    rw [hx]
    rfl

theorem mem_dropLast_or_eq {α : Type} (l : List α) (x : α)
    (hx : l.getLast? = some x) : ∀ c ∈ l, c ∈ l.dropLast ∨ c = x := by
  intro c hc
  have hne : l ≠ [] := by rintro rfl; simp at hx
  have hdec := List.dropLast_append_getLast hne
  rw [← hdec] at hc
  rcases List.mem_append.mp hc with h | h
  · exact Or.inl h
  · right
    have : l.getLast? = some (l.getLast hne) := List.getLast?_eq_getLast l hne
    rw [hx] at this
    simpa [List.mem_singleton.mp h] using this.symm

theorem g10_inv_init (start goal : Cell) : Game10.Inv (Game10.NPC.init start goal) := by
  refine ⟨by simp [Game10.NPC.init], ?_, ?_, ?_⟩ <;> simp [Game10.NPC.init]

theorem g10_inv_step (W H : Int) (maze : Cell → Nat) (s : Game10.NPC)
    (b : List Cell) (h : Game10.Inv s) :
    Game10.Inv (Game10.NPC.update W H maze s b) := by
  obtain ⟨h1, h2, h3, h4⟩ := h
  rcases Game10.update_disj W H maze s b with ⟨-, hu⟩ | ⟨-, -, hu⟩ |
    ⟨-, -, m, -, hu⟩ | ⟨-, -, nx, -, -, hu⟩
  · rw [hu]; exact ⟨h1, h2, h3, h4⟩
  · rw [hu]
    dsimp only [Game10.NPC.mark]
    exact ⟨h1, h2, fun c hc => by simp [h3 c hc], Or.inr rfl⟩
  · by_cases hl : 1 < s.path.length
    · rw [hu, Game10.backtrack_pop (by simpa [Game10.NPC.mark] using hl)]
      dsimp only [Game10.NPC.mark]
      refine ⟨dropLast_ne_nil _ hl, getLast?_eq_getLastD _ _ (dropLast_ne_nil _ hl), ?_, h4⟩
      intro c hc
      have : c ∈ s.path.dropLast := List.Sublist.subset (List.dropLast_sublist _) hc
      simp [h3 c this]
    · rw [hu, Game10.backtrack_stuck (by simpa [Game10.NPC.mark] using hl)]
      dsimp only [Game10.NPC.mark]
      exact ⟨h1, h2, fun c hc => by simp [h3 c hc], h4⟩
  · rw [hu]
    dsimp only [Game10.NPC.moveTo, Game10.NPC.mark]
    refine ⟨by simp, by simp, ?_, h4⟩
    intro c hc
    rw [List.dropLast_concat] at hc
    rcases mem_dropLast_or_eq s.path s.position h2 c hc with h | h
    · simp [h3 c h]
    · simp [h]

/-- A committed move strictly shrinks the unvisited-open count, so `phi`
drops by one. -/
theorem g10_phi_move {W H : Int} {maze : Cell → Nat} (s : Game10.NPC)
    {b : List Cell} {nx : Cell}
    (hc : Game10.chooseNext W H maze s.position s.goal s.cell_costs b = some nx)
    (hv : nx ∉ s.visited ++ [s.position]) :
    Game10.phi W H maze (Game10.NPC.moveTo s.mark nx) < Game10.phi W H maze s := by
  have hnxO : nx ∈ OpenCells W H maze :=
    mem_OpenCells.mpr (Game10.viable_open (Game10.chooseNext_mem hc))
  have hnx1 : nx ∉ s.visited := fun hh => hv (by simp [hh])
  have hnx2 : nx ≠ s.position := fun hh => hv (by simp [hh])
  dsimp only [Game10.phi, Game10.NPC.moveTo, Game10.NPC.mark]
  have hset : ((s.visited ++ [s.position]).toFinset : Finset Cell) =
      insert s.position s.visited.toFinset := by
    ext c
    simp only [List.toFinset_append, Finset.mem_union, List.mem_toFinset,
      List.toFinset_cons, List.toFinset_nil, insert_emptyc_eq, Finset.mem_insert,
      Finset.mem_singleton]
    tauto
  rw [hset]
  set S := insert s.position s.visited.toFinset with hS
  have hnxS : nx ∉ S := by
    rw [hS]
    simp only [Finset.mem_insert, List.mem_toFinset]
    push_neg
    exact ⟨hnx2, hnx1⟩
  have hmem : nx ∈ OpenCells W H maze \ S := Finset.mem_sdiff.mpr ⟨hnxO, hnxS⟩
  have hcard : (OpenCells W H maze \ insert nx S).card =
      (OpenCells W H maze \ S).card - 1 := by
    have : OpenCells W H maze \ insert nx S = (OpenCells W H maze \ S).erase nx := by
      ext c
      simp only [Finset.mem_sdiff, Finset.mem_insert, Finset.mem_erase]
      tauto
    rw [this, Finset.card_erase_of_mem hmem]
  have hpos : 1 ≤ (OpenCells W H maze \ S).card := Finset.card_pos.mpr ⟨nx, hmem⟩
  rw [hcard]
  simp only [List.length_append, List.length_singleton]
  omega

/-- A backtracking pop leaves the unvisited-open count unchanged and shrinks
the path, so `phi` drops by one. -/
theorem g10_phi_pop {W H : Int} {maze : Cell → Nat} (s : Game10.NPC) (m : Msg)
    (hInv : Game10.Inv s) (hl : 1 < s.path.length) :
    Game10.phi W H maze
        (Game10.NPC.backtrack { s.mark with out := s.out ++ [m] }) <
      Game10.phi W H maze s := by
  obtain ⟨h1, h2, h3, -⟩ := hInv
  rw [Game10.backtrack_pop (by simpa [Game10.NPC.mark] using hl)]
  dsimp only [Game10.NPC.mark]
  set q := s.path.dropLast.getLastD s.position with hq
  have hqmem : q ∈ s.visited :=
    h3 q (getLastD_mem _ _ (dropLast_ne_nil _ hl))
  dsimp only [Game10.phi]
  have hset : (insert q ((s.visited ++ [s.position]).toFinset) : Finset Cell) =
      insert s.position s.visited.toFinset := by
    ext c
    simp only [List.toFinset_append, Finset.mem_union, List.mem_toFinset,
      List.toFinset_cons, List.toFinset_nil, insert_emptyc_eq, Finset.mem_insert,
      Finset.mem_singleton]
    constructor
    · rintro (rfl | h | h)
      · exact Or.inr hqmem
      · exact Or.inr h
      · exact Or.inl h
    · rintro (rfl | h)
      · exact Or.inr (Or.inr rfl)
      · exact Or.inr (Or.inl h)
  rw [hset, List.length_dropLast]
  omega

/-- Any moving, non-goal, non-stuck tick strictly decreases `phi`. -/
theorem g10_phi_decrease {W H : Int} {maze : Cell → Nat} (s : Game10.NPC)
    (b : List Cell) (hInv : Game10.Inv s) (hm : s.fsm = NPCState.MOVING)
    (hg : s.position ≠ s.goal)
    (hns : Game10.isStuckTick W H maze s b = false) :
    Game10.phi W H maze (Game10.NPC.update W H maze s b) <
      Game10.phi W H maze s := by
  cases hc : Game10.chooseNext W H maze s.position s.goal s.cell_costs b with
  | none =>
    have hlen : 1 < s.path.length := by
      by_contra hcon
      push_neg at hcon
      have htrue : Game10.isStuckTick W H maze s b = true := by
        simp [Game10.isStuckTick, hm, hg, hc, hcon]
      rw [htrue] at hns
      cases hns
    rw [Game10.update_no_neighbors hm hg hc]
    exact g10_phi_pop s Msg.noNeighbors hInv hlen
  | some nx =>
    by_cases hv : nx ∈ s.visited ++ [s.position]
    · have hlen : 1 < s.path.length := by
        by_contra hcon
        push_neg at hcon
        have htrue : Game10.isStuckTick W H maze s b = true := by
          simp [Game10.isStuckTick, hm, hg, hc, hv, hcon]
        rw [htrue] at hns
        cases hns
      rw [Game10.update_revisit hm hg hc hv]
      exact g10_phi_pop s Msg.revisit hInv hlen
    · rw [Game10.update_move hm hg hc hv]
      exact g10_phi_move s hc hv

/-- Iterating the planner from any invariant state reaches the goal state or
a stuck tick within `phi` ticks. -/
theorem g10_terminal_by (W H : Int) (maze : Cell → Nat) (n : Nat) :
    ∀ (s : Game10.NPC) (bs : Nat → List Cell), Game10.Inv s →
      Game10.phi W H maze s ≤ n →
      ∃ k, k ≤ n ∧
        ((Game10.runFrom W H maze bs k s).fsm = NPCState.GOAL_REACHED ∨
          Game10.isStuckTick W H maze (Game10.runFrom W H maze bs k s) (bs k) = true) := by
  induction n with
  | zero =>
    intro s bs hInv hphi
    exfalso
    have h1 : s.path ≠ [] := hInv.1
    have : 1 ≤ s.path.length := by
      cases hp : s.path with
      | nil => exact absurd hp h1
      | cons a t => simp
    have : 1 ≤ Game10.phi W H maze s := by
      dsimp only [Game10.phi]
      omega
    omega
  | succ n ih =>
    intro s bs hInv hphi
    rcases hInv.2.2.2 with hm | hgoal
    · by_cases hg : s.position = s.goal
      · refine ⟨1, by omega, Or.inl ?_⟩
        show (Game10.runFrom W H maze (fun i => bs (i + 1)) 0
          (Game10.NPC.update W H maze s (bs 0))).fsm = NPCState.GOAL_REACHED
        rw [Game10.update_at_goal hm hg]
        rfl
      · cases hstuck : Game10.isStuckTick W H maze s (bs 0) with
        | true => exact ⟨0, by omega, Or.inr hstuck⟩
        | false =>
          have hdec := g10_phi_decrease s (bs 0) hInv hm hg hstuck
          have hinv' := g10_inv_step W H maze s (bs 0) hInv
          obtain ⟨k, hk, hterm⟩ := ih (Game10.NPC.update W H maze s (bs 0))
            (fun i => bs (i + 1)) hinv' (by omega)
          exact ⟨k + 1, by omega, hterm⟩
    · exact ⟨0, by omega, Or.inl hgoal⟩

/-- Claim C2: for every grid whose start cell is open, under arbitrary
per-tick barrier sets, the incremental planner's step sequence (repeated
`NPC.update` calls) reaches the `GOAL_REACHED` state or a stuck tick within
at most `2 × (number of open cells)` ticks. -/
theorem c2_termination_bound (W H : Int) (maze : Cell → Nat)
    (start goal : Cell) (bs : Nat → List Cell)
    (hs : OpenCell W H maze start) :
    ∃ k, k < 2 * (OpenCells W H maze).card ∧
      ((Game10.run W H maze start goal bs k).fsm = NPCState.GOAL_REACHED ∨
        Game10.isStuckTick W H maze (Game10.run W H maze start goal bs k)
          (bs k) = true) := by
  have hmem : start ∈ OpenCells W H maze := mem_OpenCells.mpr hs
  have hN : 1 ≤ (OpenCells W H maze).card := Finset.card_pos.mpr ⟨start, hmem⟩
  have hphi : Game10.phi W H maze (Game10.NPC.init start goal) ≤
      2 * (OpenCells W H maze).card - 1 := by
    dsimp only [Game10.phi, Game10.NPC.init]
    have hset : (insert start (([] : List Cell).toFinset) : Finset Cell) = {start} := by
      simp
    rw [hset]
    have : (OpenCells W H maze \ {start}).card =
        (OpenCells W H maze).card - 1 := by
      have : OpenCells W H maze \ {start} = (OpenCells W H maze).erase start := by
        ext c
        simp only [Finset.mem_sdiff, Finset.mem_singleton, Finset.mem_erase]
        tauto
      rw [this, Finset.card_erase_of_mem hmem]
    rw [this]
    simp only [List.length_singleton]
    omega
  obtain ⟨k, hk, hterm⟩ := g10_terminal_by W H maze
    (2 * (OpenCells W H maze).card - 1) (Game10.NPC.init start goal) bs
    (g10_inv_init start goal) hphi
  exact ⟨k, by omega, hterm⟩

/-- Witness for C2: a 1×1 all-open grid with start = goal = (0,0); the goal
state is reached on tick 1 < 2·1. -/
theorem c2_witness :
    OpenCell 1 1 (fun _ => 0) (0, 0) ∧
    ∃ k, k < 2 * (OpenCells 1 1 (fun _ => 0)).card ∧
      ((Game10.run 1 1 (fun _ => 0) (0, 0) (0, 0) (fun _ => []) k).fsm =
          NPCState.GOAL_REACHED ∨
        Game10.isStuckTick 1 1 (fun _ => 0)
          (Game10.run 1 1 (fun _ => 0) (0, 0) (0, 0) (fun _ => []) k)
          [] = true) :=
  ⟨by decide, c2_termination_bound 1 1 (fun _ => 0) (0, 0) (0, 0)
    (fun _ => []) (by decide)⟩

/-! ## Heap lemmas: popMin pops a least element of the multiset -/

theorem entryLt_irrefl (a : Nat × Cell) : ¬ entryLt a a := by
  unfold entryLt; omega

theorem entryLt_trans {a b c : Nat × Cell} (h1 : entryLt a b) (h2 : entryLt b c) :
    entryLt a c := by
  unfold entryLt at *; omega

theorem entryLt_total (a b : Nat × Cell) :
    entryLt a b ∨ (a.1 = b.1 ∧ a.2.1 = b.2.1 ∧ a.2.2 = b.2.2) ∨ entryLt b a := by
  unfold entryLt; omega

theorem minEntry_mem (e : Nat × Cell) (es : List (Nat × Cell)) :
    minEntry e es ∈ e :: es := by
  induction es generalizing e with
  | nil => simp [minEntry]
  | cons y ys ih =>
    simp only [minEntry]
    by_cases hxy : entryLt y e
    · simp only [if_pos hxy]
      rcases List.mem_cons.mp (ih y) with h | h
      · rw [h]; simp
      · simp [h]
    · simp only [if_neg hxy]
      rcases List.mem_cons.mp (ih e) with h | h
      · rw [h]; simp
      · simp [h]

theorem minEntry_not_lt : ∀ (es : List (Nat × Cell)) (e x : Nat × Cell),
    x ∈ e :: es → ¬ entryLt x (minEntry e es) := by
  intro es
  induction es with
  | nil =>
    intro e x hx
    rcases List.mem_cons.mp hx with h | h
    · rw [h]; exact entryLt_irrefl _
    · simp at h
  | cons y ys ih =>
    intro e x hx
    simp only [minEntry]
    by_cases hxy : entryLt y e
    · simp only [if_pos hxy]
      rcases List.mem_cons.mp hx with h | h
      · rw [h]
        intro hcon
        exact ih y y (by simp) (entryLt_trans hxy hcon)
      · exact ih y x h
    · simp only [if_neg hxy]
      rcases List.mem_cons.mp hx with h | h
      · rw [h]
        exact ih e e (by simp)
      · rcases List.mem_cons.mp h with h1 | h1
        · rw [h1]
          intro hcon
          have he : ¬ entryLt e (minEntry e ys) := ih e e (by simp)
          rcases entryLt_total y e with ht | ht | ht
          · exact hxy ht
          · apply he
            unfold entryLt at hcon ⊢
            omega
          · exact he (entryLt_trans ht hcon)
        · exact ih e x (by simp [h1])

theorem popMin_none_iff (l : List (Nat × Cell)) : popMin l = none ↔ l = [] := by
  cases l <;> simp [popMin]

theorem eraseFirst_perm {l : List (Nat × Cell)} {a : Nat × Cell} (h : a ∈ l) :
    l.Perm (a :: eraseFirst l a) := by
  induction l with
  | nil => simp at h
  | cons x xs ih =>
    by_cases hxa : x = a
    · subst hxa
      simp [eraseFirst]
    · rcases List.mem_cons.mp h with h1 | h1
      · exact absurd h1.symm hxa
      · simp only [eraseFirst, if_neg hxa]
        exact (List.Perm.cons x (ih h1)).trans (List.Perm.swap a x _)

theorem popMin_perm {l : List (Nat × Cell)} {e : Nat × Cell}
    {rest : List (Nat × Cell)} (h : popMin l = some (e, rest)) :
    l.Perm (e :: rest) := by
  cases l with
  | nil => simp [popMin] at h
  | cons x xs =>
    simp only [popMin, Option.some.injEq, Prod.mk.injEq] at h
    rw [← h.1, ← h.2]
    exact eraseFirst_perm (minEntry_mem x xs)

theorem popMin_mem {l : List (Nat × Cell)} {e : Nat × Cell}
    {rest : List (Nat × Cell)} (h : popMin l = some (e, rest)) : e ∈ l := by
  cases l with
  | nil => simp [popMin] at h
  | cons x xs =>
    simp only [popMin, Option.some.injEq, Prod.mk.injEq] at h
    rw [← h.1]
    exact minEntry_mem x xs

theorem popMin_fst_le {l : List (Nat × Cell)} {e : Nat × Cell}
    {rest : List (Nat × Cell)} (h : popMin l = some (e, rest)) :
    ∀ x ∈ l, e.1 ≤ x.1 := by
  intro x hx
  cases l with
  | nil => simp [popMin] at h
  | cons y ys =>
    simp only [popMin, Option.some.injEq, Prod.mk.injEq] at h
    have := minEntry_not_lt ys y x hx
    rw [h.1] at this
    unfold entryLt at this
    omega

theorem popMin_mem_of_mem {l : List (Nat × Cell)} {e : Nat × Cell}
    {rest : List (Nat × Cell)} (h : popMin l = some (e, rest))
    {x : Nat × Cell} (hx : x ∈ l) (hne : x ≠ e) : x ∈ rest := by
  have := (popMin_perm h).mem_iff.mp hx
  rcases List.mem_cons.mp this with h1 | h1
  · exact absurd h1 hne
  · exact h1

/-! ## Association-list (dict) lemmas -/

theorem lookupg_none_iff (g : List (Cell × Nat)) (c : Cell) :
    lookupg g c = none ↔ c ∉ keyset g := by
  induction g with
  | nil => simp [lookupg, keyset]
  | cons p rest ih =>
    simp only [lookupg, keyset, List.map_cons, List.toFinset_cons, Finset.mem_insert]
    by_cases hpc : c = p.1
    · simp [hpc]
    · simp only [if_neg hpc]
      rw [ih]
      simp [keyset, hpc]

theorem lookupg_some_mem {g : List (Cell × Nat)} {c : Cell} {v : Nat}
    (h : lookupg g c = some v) : c ∈ keyset g := by
  by_contra hc
  rw [← lookupg_none_iff] at hc
  rw [h] at hc
  cases hc

theorem lookupg_setg_self (g : List (Cell × Nat)) (c : Cell) (v : Nat) :
    lookupg (setg g c v) c = some v := by
  induction g with
  | nil => simp [setg, lookupg]
  | cons p rest ih =>
    by_cases hpc : p.1 = c
    · simp [setg, hpc, lookupg]
    · simp only [setg, if_neg hpc, lookupg]
      rw [if_neg (fun hh => hpc hh.symm)]
      exact ih

theorem lookupg_setg_ne (g : List (Cell × Nat)) {c c' : Cell} (v : Nat)
    (h : c' ≠ c) : lookupg (setg g c v) c' = lookupg g c' := by
  induction g with
  | nil => simp [setg, lookupg, h]
  | cons p rest ih =>
    by_cases hpc : p.1 = c
    · subst hpc
      simp [setg, lookupg, h]
    · simp only [setg, if_neg hpc, lookupg]
      by_cases hcp : c' = p.1
      · simp [hcp]
      · simp only [if_neg hcp]
        exact ih

/-! ## Characterization of the A* relaxation step -/

namespace AStar

theorem relaxOne_cases (n : Int) (maze : Cell → Nat) (goal cur : Cell)
    (st : AState) (d : Int × Int) :
    relaxOne n maze goal cur st d = st ∨
    (OpenCell n n maze (cur.1 + d.1, cur.2 + d.2) ∧
     (lookupg st.g_score (cur.1 + d.1, cur.2 + d.2) = none ∨
      ∃ v, lookupg st.g_score (cur.1 + d.1, cur.2 + d.2) = some v ∧
        (lookupg st.g_score cur).getD 0 + 1 < v) ∧
     relaxOne n maze goal cur st d =
       { open_set := st.open_set ++
           [((lookupg st.g_score cur).getD 0 + 1 +
               manhattan (cur.1 + d.1, cur.2 + d.2) goal,
             (cur.1 + d.1, cur.2 + d.2))]
         came_from := fun c => if c = (cur.1 + d.1, cur.2 + d.2) then some cur
           else st.came_from c
         g_score := setg st.g_score (cur.1 + d.1, cur.2 + d.2)
           ((lookupg st.g_score cur).getD 0 + 1) }) := by
  by_cases hguard : 0 ≤ cur.1 + d.1 ∧ cur.1 + d.1 < n ∧ 0 ≤ cur.2 + d.2 ∧
      cur.2 + d.2 < n ∧ maze (cur.1 + d.1, cur.2 + d.2) = 0
  · cases hl : lookupg st.g_score (cur.1 + d.1, cur.2 + d.2) with
    | none =>
      right
      exact ⟨hguard, Or.inl rfl, by simp [relaxOne, hguard, hl]⟩
    | some v =>
      by_cases hlt : (lookupg st.g_score cur).getD 0 + 1 < v
      · right
        exact ⟨hguard, Or.inr ⟨v, rfl, hlt⟩, by simp [relaxOne, hguard, hl, hlt]⟩
      · left
        simp [relaxOne, hguard, hl, hlt]
  · left
    simp [relaxOne, hguard]

theorem relaxOne_g_other {n : Int} {maze : Cell → Nat} {goal cur : Cell}
    {st : AState} {d : Int × Int} {c : Cell}
    (hc : c ≠ (cur.1 + d.1, cur.2 + d.2)) :
    lookupg (relaxOne n maze goal cur st d).g_score c = lookupg st.g_score c := by
  rcases relaxOne_cases n maze goal cur st d with h | ⟨-, -, h⟩
  · rw [h]
  · rw [h]
    exact lookupg_setg_ne _ _ hc

theorem relaxOne_cf_other {n : Int} {maze : Cell → Nat} {goal cur : Cell}
    {st : AState} {d : Int × Int} {c : Cell}
    (hc : c ≠ (cur.1 + d.1, cur.2 + d.2)) :
    (relaxOne n maze goal cur st d).came_from c = st.came_from c := by
  rcases relaxOne_cases n maze goal cur st d with h | ⟨-, -, h⟩
  · rw [h]
  · rw [h]
    simp [hc]

theorem relaxOne_open_extends (n : Int) (maze : Cell → Nat) (goal cur : Cell)
    (st : AState) (d : Int × Int) :
    ∃ tail, (relaxOne n maze goal cur st d).open_set = st.open_set ++ tail := by
  rcases relaxOne_cases n maze goal cur st d with h | ⟨-, -, h⟩
  · exact ⟨[], by simp [h]⟩
  · exact ⟨_, by rw [h]⟩

theorem relaxOne_g_le {n : Int} {maze : Cell → Nat} {goal cur : Cell}
    {st : AState} {d : Int × Int} {c : Cell} {v : Nat}
    (h : lookupg st.g_score c = some v) :
    ∃ v' ≤ v, lookupg (relaxOne n maze goal cur st d).g_score c = some v' := by
  rcases relaxOne_cases n maze goal cur st d with heq | ⟨-, hcond, heq⟩
  · exact ⟨v, le_refl v, by rw [heq]; exact h⟩
  · by_cases hc : c = (cur.1 + d.1, cur.2 + d.2)
    · subst hc
      rcases hcond with hnone | ⟨w, hw, hlt⟩
      · rw [h] at hnone; cases hnone
      · rw [h] at hw
        have hvw : v = w := by injection hw
        refine ⟨(lookupg st.g_score cur).getD 0 + 1, by omega, ?_⟩
        rw [heq]
        dsimp only
        exact lookupg_setg_self _ _ _
    · refine ⟨v, le_refl v, ?_⟩
      rw [heq]
      dsimp only
      rw [lookupg_setg_ne _ _ hc]
      exact h

theorem foldRelax_open_extends (n : Int) (maze : Cell → Nat) (goal cur : Cell) :
    ∀ (ds : List (Int × Int)) (st : AState),
    ∃ tail, (ds.foldl (relaxOne n maze goal cur) st).open_set =
      st.open_set ++ tail := by
  intro ds
  induction ds with
  | nil => exact fun st => ⟨[], by simp⟩
  | cons d ds ih =>
    intro st
    obtain ⟨t1, ht1⟩ := relaxOne_open_extends n maze goal cur st d
    obtain ⟨t2, ht2⟩ := ih (relaxOne n maze goal cur st d)
    exact ⟨t1 ++ t2, by simp [List.foldl_cons, ht2, ht1]⟩

theorem foldRelax_mem_open {n : Int} {maze : Cell → Nat} {goal cur : Cell}
    {ds : List (Int × Int)} {st : AState} {x : Nat × Cell}
    (hx : x ∈ st.open_set) :
    x ∈ (ds.foldl (relaxOne n maze goal cur) st).open_set := by
  obtain ⟨t, ht⟩ := foldRelax_open_extends n maze goal cur ds st
  rw [ht]
  exact List.mem_append_left _ hx

theorem foldRelax_g_untouched {n : Int} {maze : Cell → Nat} {goal cur : Cell} :
    ∀ (ds : List (Int × Int)) (st : AState) (c : Cell),
    (∀ d ∈ ds, c ≠ (cur.1 + d.1, cur.2 + d.2)) →
    lookupg (ds.foldl (relaxOne n maze goal cur) st).g_score c =
      lookupg st.g_score c := by
  intro ds
  induction ds with
  | nil => intro st c _; rfl
  | cons d ds ih =>
    intro st c hc
    simp only [List.foldl_cons]
    rw [ih _ c (fun d' hd' => hc d' (by simp [hd']))]
    exact relaxOne_g_other (hc d (by simp))

theorem foldRelax_cf_untouched {n : Int} {maze : Cell → Nat} {goal cur : Cell} :
    ∀ (ds : List (Int × Int)) (st : AState) (c : Cell),
    (∀ d ∈ ds, c ≠ (cur.1 + d.1, cur.2 + d.2)) →
    (ds.foldl (relaxOne n maze goal cur) st).came_from c = st.came_from c := by
  intro ds
  induction ds with
  | nil => intro st c _; rfl
  | cons d ds ih =>
    intro st c hc
    simp only [List.foldl_cons]
    rw [ih _ c (fun d' hd' => hc d' (by simp [hd']))]
    exact relaxOne_cf_other (hc d (by simp))

theorem foldRelax_g_le {n : Int} {maze : Cell → Nat} {goal cur : Cell} :
    ∀ (ds : List (Int × Int)) (st : AState) (c : Cell) (v : Nat),
    lookupg st.g_score c = some v →
    ∃ v' ≤ v, lookupg (ds.foldl (relaxOne n maze goal cur) st).g_score c = some v' := by
  intro ds
  induction ds with
  | nil => exact fun st c v h => ⟨v, le_refl v, h⟩
  | cons d ds ih =>
    intro st c v h
    obtain ⟨v1, hv1, h1⟩ := relaxOne_g_le (d := d) h
    obtain ⟨v2, hv2, h2⟩ := ih _ c v1 h1
    exact ⟨v2, le_trans hv2 hv1, h2⟩

theorem foldRelax_g_changed {n : Int} {maze : Cell → Nat} {goal cur : Cell} :
    ∀ (ds : List (Int × Int)) (st : AState) (c : Cell) (v' : Nat),
    (∀ d ∈ ds, cur ≠ (cur.1 + d.1, cur.2 + d.2)) →
    lookupg (ds.foldl (relaxOne n maze goal cur) st).g_score c = some v' →
    lookupg st.g_score c = some v' ∨
      ((∃ d ∈ ds, c = (cur.1 + d.1, cur.2 + d.2)) ∧
        v' = (lookupg st.g_score cur).getD 0 + 1) := by
  intro ds
  induction ds with
  | nil => exact fun st c v' _ h => Or.inl h
  | cons d ds ih =>
    intro st c v' hcur h
    simp only [List.foldl_cons] at h
    have hcur_same : lookupg (relaxOne n maze goal cur st d).g_score cur =
        lookupg st.g_score cur := relaxOne_g_other (hcur d (by simp))
    rcases ih _ c v' (fun d' hd' => hcur d' (by simp [hd'])) h with h1 | ⟨⟨d', hd', hc⟩, hv⟩
    · rcases relaxOne_cases n maze goal cur st d with heq | ⟨-, -, heq⟩
      · rw [heq] at h1
        exact Or.inl h1
      · by_cases hc : c = (cur.1 + d.1, cur.2 + d.2)
        · subst hc
          rw [heq, lookupg_setg_self] at h1
          right
          exact ⟨⟨d, by simp, rfl⟩, by injection h1 with h1; omega⟩
        · rw [heq, lookupg_setg_ne _ _ hc] at h1
          exact Or.inl h1
    · right
      rw [hcur_same] at hv
      exact ⟨⟨d', by simp [hd'], hc⟩, hv⟩

theorem foldRelax_entry_of_changed {n : Int} {maze : Cell → Nat} {goal cur : Cell} :
    ∀ (ds : List (Int × Int)) (st : AState) (c : Cell) (v' : Nat),
    (∀ d ∈ ds, cur ≠ (cur.1 + d.1, cur.2 + d.2)) →
    lookupg (ds.foldl (relaxOne n maze goal cur) st).g_score c = some v' →
    lookupg st.g_score c = some v' ∨
      (v' + manhattan c goal, c) ∈ (ds.foldl (relaxOne n maze goal cur) st).open_set := by
  intro ds
  induction ds with
  | nil => exact fun st c v' _ h => Or.inl h
  | cons d ds ih =>
    intro st c v' hcur h
    simp only [List.foldl_cons] at h ⊢
    rcases ih _ c v' (fun d' hd' => hcur d' (by simp [hd'])) h with h1 | h1
    · rcases relaxOne_cases n maze goal cur st d with heq | ⟨-, -, heq⟩
      · rw [heq] at h1
        exact Or.inl h1
      · by_cases hc : c = (cur.1 + d.1, cur.2 + d.2)
        · subst hc
          rw [heq, lookupg_setg_self] at h1
          have hv' : v' = (lookupg st.g_score cur).getD 0 + 1 := by
            injection h1 with h1; omega
          right
          apply foldRelax_mem_open
          rw [heq, hv']
          simp
        · rw [heq, lookupg_setg_ne _ _ hc] at h1
          exact Or.inl h1
    · exact Or.inr h1

theorem relaxOne_fires {n : Int} {maze : Cell → Nat} {goal cur : Cell}
    {st : AState} {d : Int × Int}
    (hopen : OpenCell n n maze (cur.1 + d.1, cur.2 + d.2))
    (hcond : lookupg st.g_score (cur.1 + d.1, cur.2 + d.2) = none ∨
      ∃ v, lookupg st.g_score (cur.1 + d.1, cur.2 + d.2) = some v ∧
        (lookupg st.g_score cur).getD 0 + 1 < v) :
    relaxOne n maze goal cur st d =
      { open_set := st.open_set ++
          [((lookupg st.g_score cur).getD 0 + 1 +
              manhattan (cur.1 + d.1, cur.2 + d.2) goal,
            (cur.1 + d.1, cur.2 + d.2))]
        came_from := fun c => if c = (cur.1 + d.1, cur.2 + d.2) then some cur
          else st.came_from c
        g_score := setg st.g_score (cur.1 + d.1, cur.2 + d.2)
          ((lookupg st.g_score cur).getD 0 + 1) } := by
  have hg : 0 ≤ cur.1 + d.1 ∧ cur.1 + d.1 < n ∧ 0 ≤ cur.2 + d.2 ∧
      cur.2 + d.2 < n ∧ maze (cur.1 + d.1, cur.2 + d.2) = 0 := hopen
  rcases hcond with hnone | ⟨v, hv, hlt⟩
  · simp [relaxOne, hg, hnone]
  · simp [relaxOne, hg, hv, hlt]

theorem foldRelax_fires {n : Int} {maze : Cell → Nat} {goal cur : Cell} :
    ∀ (ds : List (Int × Int)) (st : AState) (dstar : Int × Int) (vc : Nat),
    dstar ∈ ds →
    (∀ d ∈ ds, cur ≠ (cur.1 + d.1, cur.2 + d.2)) →
    lookupg st.g_score cur = some vc →
    OpenCell n n maze (cur.1 + dstar.1, cur.2 + dstar.2) →
    (lookupg st.g_score (cur.1 + dstar.1, cur.2 + dstar.2) = none ∨
      ∃ v, lookupg st.g_score (cur.1 + dstar.1, cur.2 + dstar.2) = some v ∧
        vc + 1 < v) →
    lookupg (ds.foldl (relaxOne n maze goal cur) st).g_score
        (cur.1 + dstar.1, cur.2 + dstar.2) = some (vc + 1) ∧
      (vc + 1 + manhattan (cur.1 + dstar.1, cur.2 + dstar.2) goal,
        (cur.1 + dstar.1, cur.2 + dstar.2)) ∈
        (ds.foldl (relaxOne n maze goal cur) st).open_set := by
  intro ds
  induction ds with
  | nil => intro st dstar vc hmem; simp at hmem
  | cons d ds ih =>
    intro st dstar vc hmem hcur hvc hopen hcond
    by_cases hdd : (cur.1 + d.1, cur.2 + d.2) = (cur.1 + dstar.1, cur.2 + dstar.2)
    · -- this step relaxes the target cell; later steps leave it alone
      rw [← hdd] at hopen hcond ⊢
      have hgetD : (lookupg st.g_score cur).getD 0 = vc := by rw [hvc]; rfl
      have hrelax := @relaxOne_fires n maze goal cur st d hopen
        (by rw [hgetD]; exact hcond)
      simp only [List.foldl_cons]
      have hg1 : lookupg (relaxOne n maze goal cur st d).g_score
          (cur.1 + d.1, cur.2 + d.2) = some (vc + 1) := by
        rw [hrelax]
        dsimp only
        rw [lookupg_setg_self, hgetD]
      have hcur1 : lookupg (relaxOne n maze goal cur st d).g_score cur = some vc := by
        rw [relaxOne_g_other (hcur d (by simp))]
        exact hvc
      have hcur_ds : ∀ d' ∈ ds, cur ≠ (cur.1 + d'.1, cur.2 + d'.2) :=
        fun d' hd' => hcur d' (by simp [hd'])
      obtain ⟨v', hv'le, hv'⟩ := foldRelax_g_le ds _ _ _ hg1
      have hvfin : v' = vc + 1 := by
        rcases foldRelax_g_changed ds _ _ _ hcur_ds hv' with h1 | ⟨-, h1⟩
        · rw [hg1] at h1
          injection h1 with h1
          omega
        · rw [hcur1] at h1
          simpa using h1
      subst hvfin
      refine ⟨hv', ?_⟩
      apply foldRelax_mem_open
      rw [hrelax]
      dsimp only
      simp only [List.mem_append]
      right
      simp [hgetD]
    · have hne : (cur.1 + dstar.1, cur.2 + dstar.2) ≠ (cur.1 + d.1, cur.2 + d.2) :=
        fun hh => hdd hh.symm
      have hd' : dstar ∈ ds := by
        rcases List.mem_cons.mp hmem with h1 | h1
        · exfalso; rw [h1] at hdd; exact hdd rfl
        · exact h1
      simp only [List.foldl_cons]
      apply ih _ dstar vc hd' (fun d' hdm => hcur d' (by simp [hdm]))
      · rw [relaxOne_g_other (hcur d (by simp))]
        exact hvc
      · exact hopen
      · rcases hcond with hnone | ⟨v, hv, hlt⟩
        · left; rw [relaxOne_g_other hne]; exact hnone
        · right; exact ⟨v, by rw [relaxOne_g_other hne]; exact hv, hlt⟩

theorem step_ne_self {cur : Cell} {d : Int × Int} (hd : d ∈ dirs) :
    (cur.1 + d.1, cur.2 + d.2) ≠ cur := by
  simp only [dirs, List.mem_cons, List.mem_singleton, List.not_mem_nil, or_false] at hd
  intro hcon
  have h1 := congrArg Prod.fst hcon
  have h2 := congrArg Prod.snd hcon
  simp only at h1 h2
  rcases hd with rfl | rfl | rfl | rfl <;> simp at h1 h2

theorem invbase_pop {n : Int} {maze : Cell → Nat} {start goal : Cell}
    {s : AState} {e : Nat × Cell} {rest : List (Nat × Cell)}
    (hInv : InvBase n maze start goal s)
    (hpop : popMin s.open_set = some (e, rest)) (hne : e.2 ≠ goal) :
    InvBase n maze start goal { s with open_set := rest } := by
  obtain ⟨h1, h2, h3, h4, h5⟩ := hInv
  refine ⟨h1, h2, ?_, h4, ?_⟩
  · intro f c hfc
    exact h3 f c ((popMin_perm hpop).mem_iff.mpr (by simp [hfc]))
  · intro hv
    obtain ⟨f, hf⟩ := h5 hv
    refine ⟨f, popMin_mem_of_mem hpop hf ?_⟩
    intro hcon
    exact hne (by rw [← hcon])

theorem relaxOne_invbase {n : Int} {maze : Cell → Nat} {start goal cur : Cell}
    {st : AState} {d : Int × Int} (hd : d ∈ dirs)
    (hInv : InvBase n maze start goal st)
    (hcurv : ∃ vc, lookupg st.g_score cur = some vc) :
    InvBase n maze start goal (relaxOne n maze goal cur st d) := by
  obtain ⟨h1, h2, h3, h4, h5⟩ := hInv
  obtain ⟨vc, hvc⟩ := hcurv
  rcases relaxOne_cases n maze goal cur st d with heq | ⟨hopen, hcond, heq⟩
  · rw [heq]; exact ⟨h1, h2, h3, h4, h5⟩
  · have hgetD : (lookupg st.g_score cur).getD 0 = vc := by rw [hvc]; rfl
    have hcurnb : cur ≠ (cur.1 + d.1, cur.2 + d.2) :=
      fun hh => step_ne_self hd hh.symm
    have hnbstart : (cur.1 + d.1, cur.2 + d.2) ≠ start := by
      intro heqs
      rcases hcond with hnone | ⟨v, hv, hlt⟩
      · rw [heqs, h1] at hnone
        cases hnone
      · rw [heqs, h1] at hv
        have : v = 0 := by injection hv with hv; omega
        omega
    rw [heq]
    refine ⟨?_, ?_, ?_, ?_, ?_⟩
    · dsimp only
      rw [lookupg_setg_ne _ _ (fun hh => hnbstart hh.symm)]
      exact h1
    · dsimp only
      rw [if_neg (fun hh => hnbstart hh.symm)]
      exact h2
    · dsimp only
      intro f c hfc
      rcases List.mem_append.mp hfc with hold | hnew
      · rcases h3 f c hold with hfirst | ⟨v, hv, hle⟩
        · exact Or.inl hfirst
        · right
          by_cases hc : c = (cur.1 + d.1, cur.2 + d.2)
          · subst hc
            rcases hcond with hnone | ⟨w, hw, hlt⟩
            · rw [hv] at hnone; cases hnone
            · rw [hv] at hw
              have hvw : v = w := by injection hw
              refine ⟨(lookupg st.g_score cur).getD 0 + 1, lookupg_setg_self _ _ _, ?_⟩
              omega
          · exact ⟨v, by rw [lookupg_setg_ne _ _ hc]; exact hv, hle⟩
      · simp only [List.mem_singleton] at hnew
        have hf : f = (lookupg st.g_score cur).getD 0 + 1 +
            manhattan (cur.1 + d.1, cur.2 + d.2) goal ∧
            c = (cur.1 + d.1, cur.2 + d.2) := by
          constructor
          · exact congrArg Prod.fst hnew
          · exact congrArg Prod.snd hnew
        right
        rw [hf.1, hf.2]
        exact ⟨_, lookupg_setg_self _ _ _, le_refl _⟩
    · dsimp only
      intro c v hv hcs
      by_cases hc : c = (cur.1 + d.1, cur.2 + d.2)
      · subst hc
        rw [lookupg_setg_self] at hv
        have hvt : v = (lookupg st.g_score cur).getD 0 + 1 := by injection hv with hv; omega
        refine ⟨cur, vc, ?_, ?_, hopen, ?_, ?_⟩
        · simp
        · exact adj_of_mem_dirs hd
        · rw [lookupg_setg_ne _ _ hcurnb]
          exact hvc
        · omega
      · rw [lookupg_setg_ne _ _ hc] at hv
        obtain ⟨p, vp, hp1, hp2, hp3, hp4, hp5⟩ := h4 c v hv hcs
        by_cases hpnb : p = (cur.1 + d.1, cur.2 + d.2)
        · subst hpnb
          rcases hcond with hnone | ⟨w, hw, hlt⟩
          · rw [hp4] at hnone; cases hnone
          · rw [hp4] at hw
            have hvw : vp = w := by injection hw
            refine ⟨_, (lookupg st.g_score cur).getD 0 + 1,
              by rw [if_neg hc]; exact hp1, hp2, hp3, lookupg_setg_self _ _ _, ?_⟩
            omega
        · exact ⟨p, vp, by rw [if_neg hc]; exact hp1, hp2, hp3,
            by rw [lookupg_setg_ne _ _ hpnb]; exact hp4, hp5⟩
    · dsimp only
      intro hv
      by_cases hgoalnb : goal = (cur.1 + d.1, cur.2 + d.2)
      · refine ⟨(lookupg st.g_score cur).getD 0 + 1 +
          manhattan (cur.1 + d.1, cur.2 + d.2) goal, ?_⟩
        rw [hgoalnb]
        simp
      · obtain ⟨v, hv⟩ := hv
        rw [lookupg_setg_ne _ _ hgoalnb] at hv
        obtain ⟨f, hf⟩ := h5 ⟨v, hv⟩
        exact ⟨f, List.mem_append_left _ hf⟩

theorem foldRelax_invbase {n : Int} {maze : Cell → Nat} {start goal cur : Cell} :
    ∀ (ds : List (Int × Int)) (st : AState), (∀ d ∈ ds, d ∈ dirs) →
    InvBase n maze start goal st →
    (∃ vc, lookupg st.g_score cur = some vc) →
    InvBase n maze start goal (ds.foldl (relaxOne n maze goal cur) st) := by
  intro ds
  induction ds with
  | nil => exact fun st _ hInv _ => hInv
  | cons d ds ih =>
    intro st hds hInv hcurv
    simp only [List.foldl_cons]
    obtain ⟨vc, hvc⟩ := hcurv
    apply ih _ (fun d' hd' => hds d' (by simp [hd']))
      (relaxOne_invbase (hds d (by simp)) hInv ⟨vc, hvc⟩)
    refine ⟨vc, ?_⟩
    rw [relaxOne_g_other (fun hh => step_ne_self (hds d (by simp)) hh.symm)]
    exact hvc

/-- The g-score of a popped heap cell exists. -/
theorem popped_has_g {n : Int} {maze : Cell → Nat} {start goal : Cell}
    {s : AState} {e : Nat × Cell} {rest : List (Nat × Cell)}
    (hInv : InvBase n maze start goal s)
    (hpop : popMin s.open_set = some (e, rest)) :
    ∃ vc, lookupg s.g_score e.2 = some vc := by
  rcases hInv.2.2.1 e.1 e.2 (by simpa using popMin_mem hpop) with ⟨-, hc⟩ | ⟨v, hv, -⟩
  · exact ⟨0, by rw [hc]; exact hInv.1⟩
  · exact ⟨v, hv⟩

/-- One full non-goal loop iteration preserves the base invariant. -/
theorem invbase_step {n : Int} {maze : Cell → Nat} {start goal : Cell}
    {s : AState} {e : Nat × Cell} {rest : List (Nat × Cell)}
    (hInv : InvBase n maze start goal s)
    (hpop : popMin s.open_set = some (e, rest)) (hne : e.2 ≠ goal) :
    InvBase n maze start goal
      (astarStep n maze goal e.2 { s with open_set := rest }) := by
  unfold astarStep
  obtain ⟨vc, hvc⟩ := popped_has_g hInv hpop
  exact foldRelax_invbase dirs _ (fun d hd => hd) (invbase_pop hInv hpop hne)
    ⟨vc, hvc⟩

end AStar

/-! ## Walks, distances and the Manhattan heuristic -/

theorem manhattan_self (c : Cell) : manhattan c c = 0 := by
  unfold manhattan; omega

theorem adj_manhattan {a b : Cell} (h : Adj a b) : manhattan a b = 1 := by
  unfold Adj at h
  simp only [dirs, List.mem_cons, List.mem_singleton, List.not_mem_nil, or_false] at h
  unfold manhattan
  rcases h with h | h | h | h <;>
    (have h1 := congrArg Prod.fst h
     have h2 := congrArg Prod.snd h
     simp only at h1 h2
     omega)

theorem manhattan_triangle (a b c : Cell) :
    manhattan a c ≤ manhattan a b + manhattan b c := by
  unfold manhattan; omega

theorem manhattan_le_reach {W H : Int} {maze : Cell → Nat} {a c : Cell} {k : Nat}
    (h : ReachN W H maze a c k) : manhattan a c ≤ k := by
  induction h with
  | zero => simp [manhattan_self]
  | @succ b b' k hr hadj hopen ih =>
    have htri := manhattan_triangle a b b'
    have hadj1 := adj_manhattan hadj
    omega

theorem reachN_trans {W H : Int} {maze : Cell → Nat} {a b c : Cell} {k k' : Nat}
    (h1 : ReachN W H maze a b k) (h2 : ReachN W H maze b c k') :
    ReachN W H maze a c (k + k') := by
  induction h2 with
  | zero => exact h1
  | succ hr hadj hopen ih => exact .succ ih hadj hopen

theorem reachN_single {W H : Int} {maze : Cell → Nat} {a b : Cell}
    (hadj : Adj a b) (hopen : OpenCell W H maze b) : ReachN W H maze a b 1 :=
  .succ .zero hadj hopen

theorem getD_append_l {α : Type} (w l : List α) (d : α) (n : Nat)
    (h : n < w.length) : (w ++ l).getD n d = w.getD n d := by
  simp [List.getD_eq_getElem?_getD, List.getElem?_append, h]

theorem getD_append_r {α : Type} (w l : List α) (d : α) (n : Nat)
    (h : w.length ≤ n) : (w ++ l).getD n d = l.getD (n - w.length) d := by
  simp [List.getD_eq_getElem?_getD, List.getElem?_append_right h]

theorem reachN_walk {W H : Int} {maze : Cell → Nat} {start goal : Cell} {m : Nat}
    (h : ReachN W H maze start goal m) :
    ∃ w : List Cell, w.length = m + 1 ∧ w.getD 0 start = start ∧
      w.getD m start = goal ∧
      (∀ i, i + 1 ≤ m → Adj (w.getD i start) (w.getD (i + 1) start)) ∧
      (∀ i, 1 ≤ i → i ≤ m → OpenCell W H maze (w.getD i start)) := by
  induction h with
  | zero => exact ⟨[start], by simp, by simp, by simp, by omega, by omega⟩
  | @succ c c' k hr hadj hopen ih =>
    obtain ⟨w, hw1, hw2, hw3, hw4, hw5⟩ := ih
    refine ⟨w ++ [c'], by simp [hw1], ?_, ?_, ?_, ?_⟩
    · rw [getD_append_l _ _ _ _ (by omega)]
      exact hw2
    · rw [getD_append_r _ _ _ _ (by omega), hw1]
      simp
    · intro i hi
      by_cases hik : i + 1 ≤ k
      · rw [getD_append_l _ _ _ _ (by omega), getD_append_l _ _ _ _ (by omega)]
        exact hw4 i hik
      · have hieq : i = k := by omega
        subst hieq
        rw [getD_append_l _ _ _ _ (by omega), getD_append_r _ _ _ _ (by omega), hw1]
        have : i + 1 - (i + 1) = 0 := by omega
        rw [this]
        simp only [List.getD_cons_zero]
        rw [hw3]
        exact hadj
    · intro i h1i hik
      by_cases hik' : i ≤ k
      · rw [getD_append_l _ _ _ _ (by omega)]
        exact hw5 i h1i hik'
      · have hieq : i = k + 1 := by omega
        subst hieq
        rw [getD_append_r _ _ _ _ (by omega), hw1]
        have : k + 1 - (k + 1) = 0 := by omega
        rw [this]
        simpa using hopen

theorem walk_suffix_reach {W H : Int} {maze : Cell → Nat} {start goal : Cell}
    {w : List Cell} {m : Nat} (hw3 : w.getD m start = goal)
    (hw4 : ∀ i, i + 1 ≤ m → Adj (w.getD i start) (w.getD (i + 1) start))
    (hw5 : ∀ i, 1 ≤ i → i ≤ m → OpenCell W H maze (w.getD i start)) :
    ∀ t j, j + t = m → ReachN W H maze (w.getD j start) goal t := by
  intro t
  induction t with
  | zero =>
    intro j hj
    have hjm : j = m := by omega
    subst hjm
    rw [hw3]
    exact .zero
  | succ t ih =>
    intro j hj
    have hstep : ReachN W H maze (w.getD j start) (w.getD (j + 1) start) 1 :=
      reachN_single (hw4 j (by omega)) (hw5 (j + 1) (by omega) (by omega))
    have := reachN_trans hstep (ih (j + 1) (by omega))
    simpa [Nat.add_comm] using this

/-! ## The g-scores certify walks; path reconstruction -/

namespace AStar

theorem g_reach {n : Int} {maze : Cell → Nat} {start goal : Cell} {s : AState}
    (hInv : InvBase n maze start goal s) :
    ∀ v c, lookupg s.g_score c = some v → ∃ k ≤ v, ReachN n n maze start c k := by
  intro v
  induction v using Nat.strong_induction_on with
  | _ v ih =>
    intro c hc
    by_cases hcs : c = start
    · subst hcs
      exact ⟨0, by omega, .zero⟩
    · obtain ⟨p, vp, hp1, hp2, hp3, hp4, hp5⟩ := hInv.2.2.2.1 c v hc hcs
      obtain ⟨k, hk, hreach⟩ := ih vp (by omega) p hp4
      exact ⟨k + 1, by omega, .succ hreach hp2 hp3⟩

theorem rebuild_chain {n : Int} {maze : Cell → Nat} {start goal : Cell}
    {s : AState} (hInv : InvBase n maze start goal s) :
    ∀ v c, lookupg s.g_score c = some v →
    ∃ chain : List Cell,
      (∀ (acc : List Cell) (fuel : Nat), chain.length ≤ fuel →
        rebuild s.came_from fuel c acc = acc ++ chain) ∧
      chain.length ≤ v ∧
      ReachN n n maze start c chain.length ∧
      (∀ x ∈ chain, ∃ vx, lookupg s.g_score x = some vx ∧ vx ≤ v) ∧
      start ∉ chain ∧ chain.Nodup ∧
      (chain = [] → c = start) ∧ (chain ≠ [] → chain.head? = some c) := by
  intro v
  induction v using Nat.strong_induction_on with
  | _ v ih =>
    intro c hc
    by_cases hcs : c = start
    · subst hcs
      refine ⟨[], ?_, by simp, .zero, by simp, by simp, by simp, fun _ => rfl,
        fun hne => absurd rfl hne⟩
      intro acc fuel _
      cases fuel with
      | zero => simp [rebuild]
      | succ f => simp [rebuild, hInv.2.1]
    · obtain ⟨p, vp, hp1, hp2, hp3, hp4, hp5⟩ := hInv.2.2.2.1 c v hc hcs
      obtain ⟨chain_p, hr1, hr2, hr3, hr4, hr5, hr6, hr7, hr8⟩ :=
        ih vp (by omega) p hp4
      refine ⟨c :: chain_p, ?_, by simp; omega, ?_, ?_, ?_, ?_, by simp,
        fun _ => rfl⟩
      · intro acc fuel hfl
        cases fuel with
        | zero => simp at hfl
        | succ f =>
          simp only [rebuild, hp1]
          rw [hr1 (acc ++ [c]) f (by simp at hfl; omega)]
          simp
      · exact .succ hr3 hp2 hp3
      · intro x hx
        rcases List.mem_cons.mp hx with rfl | hx
        · exact ⟨v, hc, le_refl v⟩
        · obtain ⟨vx, hvx1, hvx2⟩ := hr4 x hx
          exact ⟨vx, hvx1, by omega⟩
      · intro hcon
        rcases List.mem_cons.mp hcon with h1 | h1
        · exact hcs h1.symm
        · exact hr5 h1
      · refine List.nodup_cons.mpr ⟨?_, hr6⟩
        intro hcmem
        obtain ⟨vx, hvx1, hvx2⟩ := hr4 c hcmem
        rw [hc] at hvx1
        have : v = vx := by injection hvx1
        omega

/-- The value returned at a goal pop: `start :: chain.reverse` for the
reconstruction chain of the goal, whose length the goal's g-score bounds. -/
theorem astar_return_path {n : Int} {maze : Cell → Nat} {start goal : Cell}
    {s : AState} (hInv : InvBase n maze start goal s) {v : Nat}
    (hg : lookupg s.g_score goal = some v) :
    ∃ chain : List Cell,
      ((rebuild s.came_from (s.g_score.length + 1) goal []) ++ [start]).reverse =
        start :: chain.reverse ∧
      chain.length ≤ v ∧ ReachN n n maze start goal chain.length ∧
      (chain = [] → goal = start) ∧ (chain ≠ [] → chain.head? = some goal) := by
  obtain ⟨chain, hr1, hr2, hr3, hr4, hr5, hr6, hr7, hr8⟩ := rebuild_chain hInv v goal hg
  have hsub : chain.toFinset ⊆ (keyset s.g_score).erase start := by
    intro x hx
    rw [List.mem_toFinset] at hx
    rw [Finset.mem_erase]
    obtain ⟨vx, hvx, -⟩ := hr4 x hx
    exact ⟨fun hh => hr5 (hh ▸ hx), lookupg_some_mem hvx⟩
  have hstart_mem : start ∈ keyset s.g_score := lookupg_some_mem hInv.1
  have hlen : chain.length ≤ s.g_score.length - 1 := by
    have h1 : chain.toFinset.card = chain.length := List.toFinset_card_of_nodup hr6
    have h2 : chain.toFinset.card ≤ ((keyset s.g_score).erase start).card :=
      Finset.card_le_card hsub
    have h3 : ((keyset s.g_score).erase start).card = (keyset s.g_score).card - 1 :=
      Finset.card_erase_of_mem hstart_mem
    have h4 : (keyset s.g_score).card ≤ s.g_score.length := by
      have := List.toFinset_card_le (s.g_score.map Prod.fst)
      simpa [keyset] using this
    omega
  have hfuel : chain.length ≤ s.g_score.length + 1 := by omega
  rw [hr1 [] _ hfuel]
  exact ⟨chain, by simp, hr2, hr3, hr7, hr8⟩

/-- Scored walk cells are bounded below by their walk index: a g-score `v` at
`w[j]` certifies a walk of `≤ v` steps to `w[j]`, which extends along the walk
suffix to the goal; minimality of `m` forces `j ≤ v`. -/
theorem g_idx_lb {n : Int} {maze : Cell → Nat} {start goal : Cell} {s : AState}
    {w : List Cell} {m : Nat} (hInv : InvBase n maze start goal s)
    (hleast : IsLeast {k | ReachN n n maze start goal k} m)
    (hw3 : w.getD m start = goal)
    (hw4 : ∀ i, i + 1 ≤ m → Adj (w.getD i start) (w.getD (i + 1) start))
    (hw5 : ∀ i, 1 ≤ i → i ≤ m → OpenCell n n maze (w.getD i start)) :
    ∀ j ≤ m, ∀ v, lookupg s.g_score (w.getD j start) = some v → j ≤ v := by
  intro j hj v hv
  obtain ⟨k, hk, hreach⟩ := g_reach hInv v _ hv
  have hsuffix : ReachN n n maze (w.getD j start) goal (m - j) :=
    walk_suffix_reach hw3 hw4 hw5 (m - j) j (by omega)
  have hcomp := reachN_trans hreach hsuffix
  have hmle : m ≤ k + (m - j) := hleast.2 hcomp
  omega

/-- One full non-goal loop iteration preserves the progress invariant. -/
theorem invwit_step {n : Int} {maze : Cell → Nat} {start goal : Cell}
    {s : AState} {e : Nat × Cell} {rest : List (Nat × Cell)}
    {w : List Cell} {m : Nat}
    (hInv : InvBase n maze start goal s)
    (hwit : InvWit goal w start m s)
    (hpop : popMin s.open_set = some (e, rest))
    (hne : e.2 ≠ goal)
    (hleast : IsLeast {k | ReachN n n maze start goal k} m)
    (hw2 : w.getD 0 start = start)
    (hw3 : w.getD m start = goal)
    (hw4 : ∀ i, i + 1 ≤ m → Adj (w.getD i start) (w.getD (i + 1) start))
    (hw5 : ∀ i, 1 ≤ i → i ≤ m → OpenCell n n maze (w.getD i start)) :
    InvWit goal w start m (astarStep n maze goal e.2 { s with open_set := rest }) := by
  have hInv' : InvBase n maze start goal
      (astarStep n maze goal e.2 { s with open_set := rest }) :=
    invbase_step hInv hpop hne
  unfold astarStep at hInv' ⊢
  have hcur_ne : ∀ d ∈ dirs, e.2 ≠ (e.2.1 + d.1, e.2.2 + d.2) :=
    fun d hd hh => step_ne_self hd hh.symm
  have hlb := g_idx_lb hInv hleast hw3 hw4 hw5
  have hlb' := g_idx_lb hInv' hleast hw3 hw4 hw5
  -- settledness is permanent across the iteration
  have hperm : ∀ j ≤ m, settled s.g_score w start j →
      settled (dirs.foldl (relaxOne n maze goal e.2)
        { s with open_set := rest }).g_score w start j := by
    intro j hj hsj
    unfold settled at hsj ⊢
    obtain ⟨v', hv'le, hv'⟩ := foldRelax_g_le dirs { s with open_set := rest }
      (w.getD j start) j hsj
    have hj' := hlb' j hj v' hv'
    have hvj : v' = j := by omega
    subst hvj
    exact hv'
  have hs0 : settled s.g_score w start 0 := by
    unfold settled
    rw [hw2]
    exact hInv.1
  have hs0' : settled (dirs.foldl (relaxOne n maze goal e.2)
      { s with open_set := rest }).g_score w start 0 :=
    hperm 0 (Nat.zero_le m) hs0
  rcases hwit with hm | ⟨f, hfle, hfmem⟩
  · exact Or.inl (hperm m (le_refl m) hm)
  · have him : witIdx s.g_score w start m ≤ m := Nat.findGreatest_le m
    have hsi : settled s.g_score w start (witIdx s.g_score w start m) :=
      Nat.findGreatest_spec (Nat.zero_le m) hs0
    by_cases him_eq : witIdx s.g_score w start m = m
    · exact Or.inl (hperm m (le_refl m) (him_eq ▸ hsi))
    · have hilt : witIdx s.g_score w start m < m := lt_of_le_of_ne him him_eq
      set i := witIdx s.g_score w start m with hidef
      by_cases hcuri : e.2 = w.getD i start
      · -- the popped cell is the frontier cell of the walk: its successor
        -- gets relaxed during this expansion
        have hadj : ((w.getD (i + 1) start).1 - (w.getD i start).1,
            (w.getD (i + 1) start).2 - (w.getD i start).2) ∈ dirs :=
          hw4 i (by omega)
        have hnbeq : (e.2.1 + ((w.getD (i + 1) start).1 - (w.getD i start).1),
            e.2.2 + ((w.getD (i + 1) start).2 - (w.getD i start).2)) =
            w.getD (i + 1) start := by
          rw [hcuri]
          rw [Prod.ext_iff]
          constructor <;> simp
        have hvc : lookupg s.g_score e.2 = some i := by
          rw [hcuri]
          exact hsi
        have hgetD : (lookupg s.g_score e.2).getD 0 = i := by rw [hvc]; rfl
        have hnotset : ¬ settled s.g_score w start (i + 1) := by
          intro hcon
          have h2 : i + 1 ≤ witIdx s.g_score w start m :=
            Nat.le_findGreatest (by omega : i + 1 ≤ m) hcon
          omega
        have hcond : lookupg s.g_score (w.getD (i + 1) start) = none ∨
            ∃ v, lookupg s.g_score (w.getD (i + 1) start) = some v ∧ i + 1 < v := by
          cases hl : lookupg s.g_score (w.getD (i + 1) start) with
          | none => exact Or.inl rfl
          | some v =>
            right
            refine ⟨v, rfl, ?_⟩
            have hge := hlb (i + 1) (by omega) v hl
            have hnei : v ≠ i + 1 := by
              intro hcon
              exact hnotset (by unfold settled; rw [hl, hcon])
            omega
        obtain ⟨hgset, hentry⟩ := foldRelax_fires dirs
          { s with open_set := rest }
          ((w.getD (i + 1) start).1 - (w.getD i start).1,
           (w.getD (i + 1) start).2 - (w.getD i start).2) i hadj hcur_ne hvc
          (by rw [hnbeq]; exact hw5 (i + 1) (by omega) (by omega))
          (by rw [hnbeq]; exact hcond)
        rw [hnbeq] at hgset hentry
        have hset1 : settled (dirs.foldl (relaxOne n maze goal e.2)
            { s with open_set := rest }).g_score w start (i + 1) := by
          unfold settled
          exact hgset
        have hi' : witIdx (dirs.foldl (relaxOne n maze goal e.2)
            { s with open_set := rest }).g_score w start m = i + 1 := by
          apply le_antisymm
          · by_contra hgt
            push_neg at hgt
            have hi'le : witIdx (dirs.foldl (relaxOne n maze goal e.2)
                { s with open_set := rest }).g_score w start m ≤ m :=
              Nat.findGreatest_le m
            have hsi'' : settled (dirs.foldl (relaxOne n maze goal e.2)
                { s with open_set := rest }).g_score w start
                (witIdx (dirs.foldl (relaxOne n maze goal e.2)
                  { s with open_set := rest }).g_score w start m) :=
              Nat.findGreatest_spec (Nat.zero_le m) hs0'
            unfold settled at hsi''
            rcases foldRelax_g_changed dirs { s with open_set := rest }
              (w.getD (witIdx (dirs.foldl (relaxOne n maze goal e.2)
                { s with open_set := rest }).g_score w start m) start)
              (witIdx (dirs.foldl (relaxOne n maze goal e.2)
                { s with open_set := rest }).g_score w start m)
              hcur_ne hsi'' with hold | ⟨-, hval⟩
            · have : witIdx (dirs.foldl (relaxOne n maze goal e.2)
                  { s with open_set := rest }).g_score w start m ≤ i :=
                Nat.le_findGreatest hi'le (by unfold settled; exact hold)
              omega
            · rw [hgetD] at hval
              omega
          · exact Nat.le_findGreatest (by omega : i + 1 ≤ m) hset1
        by_cases hi1m : i + 1 = m
        · exact Or.inl (by rw [← hi1m]; exact hset1)
        · right
          rw [hi']
          exact ⟨i + 1 + manhattan (w.getD (i + 1) start) goal, le_refl _, hentry⟩
      · -- the pop does not touch the witness entry
        have hfmem' : (f, w.getD i start) ∈ (dirs.foldl (relaxOne n maze goal e.2)
            { s with open_set := rest }).open_set := by
          apply foldRelax_mem_open
          apply popMin_mem_of_mem hpop hfmem
          intro hcon
          exact hcuri (congrArg Prod.snd hcon).symm
        have hsi' : settled (dirs.foldl (relaxOne n maze goal e.2)
            { s with open_set := rest }).g_score w start i :=
          hperm i him hsi
        have hii' : i ≤ witIdx (dirs.foldl (relaxOne n maze goal e.2)
            { s with open_set := rest }).g_score w start m :=
          Nat.le_findGreatest him hsi'
        have hi'le : witIdx (dirs.foldl (relaxOne n maze goal e.2)
            { s with open_set := rest }).g_score w start m ≤ m :=
          Nat.findGreatest_le m
        have hsi'' : settled (dirs.foldl (relaxOne n maze goal e.2)
            { s with open_set := rest }).g_score w start
            (witIdx (dirs.foldl (relaxOne n maze goal e.2)
              { s with open_set := rest }).g_score w start m) :=
          Nat.findGreatest_spec (Nat.zero_le m) hs0'
        unfold settled at hsi''
        rcases foldRelax_entry_of_changed dirs { s with open_set := rest }
          (w.getD (witIdx (dirs.foldl (relaxOne n maze goal e.2)
            { s with open_set := rest }).g_score w start m) start)
          (witIdx (dirs.foldl (relaxOne n maze goal e.2)
            { s with open_set := rest }).g_score w start m)
          hcur_ne hsi'' with hold | hentry
        · have hle_i : witIdx (dirs.foldl (relaxOne n maze goal e.2)
              { s with open_set := rest }).g_score w start m ≤ i :=
            Nat.le_findGreatest hi'le (by unfold settled; exact hold)
          have hieq : witIdx (dirs.foldl (relaxOne n maze goal e.2)
              { s with open_set := rest }).g_score w start m = i :=
            le_antisymm hle_i hii'
          right
          rw [hieq]
          exact ⟨f, hfle, hfmem'⟩
        · right
          exact ⟨_, le_refl _, hentry⟩

/-- From any state satisfying the base and progress invariants the loop
returns a list headed by `start`, ending in `goal`, of length exactly
`m + 1` for the shortest distance `m`. -/
theorem astarLoop_spec {n : Int} {maze : Cell → Nat} {start goal : Cell}
    {w : List Cell} {m : Nat}
    (hleast : IsLeast {k | ReachN n n maze start goal k} m)
    (hw2 : w.getD 0 start = start)
    (hw3 : w.getD m start = goal)
    (hw4 : ∀ i, i + 1 ≤ m → Adj (w.getD i start) (w.getD (i + 1) start))
    (hw5 : ∀ i, 1 ≤ i → i ≤ m → OpenCell n n maze (w.getD i start)) :
    ∀ s : AState, InvBase n maze start goal s → InvWit goal w start m s →
      (astarLoop n maze start goal s).head? = some start ∧
      (astarLoop n maze start goal s).getLast? = some goal ∧
      (astarLoop n maze start goal s).length = m + 1 := by
  intro s
  induction s using astarLoop.induct n maze start goal with
  | case1 x hpop =>
    intro hInv hwit
    exfalso
    have hempty : x.open_set = [] := (popMin_none_iff _).mp hpop
    rcases hwit with hm | ⟨f, hfle, hfmem⟩
    · have hg : ∃ v, lookupg x.g_score goal = some v := by
        refine ⟨m, ?_⟩
        unfold settled at hm
        rwa [hw3] at hm
      obtain ⟨f, hf⟩ := hInv.2.2.2.2 hg
      rw [hempty] at hf
      simp at hf
    · rw [hempty] at hfmem
      simp at hfmem
  | case2 x e rest hpop hgoal =>
    intro hInv hwit
    have hpopmem : e ∈ x.open_set := popMin_mem hpop
    have hgm : lookupg x.g_score goal = some m := by
      rcases hwit with hm | ⟨f, hfle, hfmem⟩
      · unfold settled at hm
        rwa [hw3] at hm
      · have him : witIdx x.g_score w start m ≤ m := Nat.findGreatest_le m
        have hsufr : ReachN n n maze (w.getD (witIdx x.g_score w start m) start)
            goal (m - witIdx x.g_score w start m) :=
          walk_suffix_reach hw3 hw4 hw5 (m - witIdx x.g_score w start m)
            (witIdx x.g_score w start m) (by omega)
        have hman := manhattan_le_reach hsufr
        have hele : e.1 ≤ f := popMin_fst_le hpop _ hfmem
        have hmem' : (e.1, e.2) ∈ x.open_set := by rw [Prod.mk.eta]; exact hpopmem
        rcases hInv.2.2.1 e.1 e.2 hmem' with ⟨h0, hes⟩ | ⟨v, hv, hvle⟩
        · have hsg : start = goal := by rw [← hes, hgoal]
          have hm0 : m = 0 := by
            have h00 : ReachN n n maze start goal 0 := by
              rw [← hsg]; exact .zero
            have := hleast.2 h00
            omega
          rw [hm0, ← hsg]
          exact hInv.1
        · rw [hgoal] at hv
          have hmm := manhattan_self goal
          obtain ⟨k, hk, hkr⟩ := g_reach hInv v goal hv
          have hmk := hleast.2 hkr
          have hvm : v = m := by omega
          rwa [hvm] at hv
    obtain ⟨chain, hre, hlen_le, hreach, hnil, hhead⟩ := astar_return_path hInv hgm
    have hmle : m ≤ chain.length := hleast.2 hreach
    have hlen : chain.length = m := by omega
    have hloop : astarLoop n maze start goal x =
        ((rebuild x.came_from (x.g_score.length + 1) goal []) ++ [start]).reverse := by
      rw [astarLoop.eq_def]
      split
      · rename_i heq
        rw [hpop] at heq
        exact Option.noConfusion heq
      · rename_i e' rest' heq
        rw [hpop] at heq
        injection heq with h1
        injection h1 with h2 h3
        subst h2
        rw [if_pos hgoal]
    rw [hloop, hre]
    refine ⟨rfl, ?_, by simp [hlen]⟩
    cases hc : chain with
    | nil =>
      have hgs := hnil hc
      simp [hc, hgs]
    | cons a cs =>
      have hh := hhead (by simp [hc])
      rw [hc] at hh
      simp only [List.head?_cons, Option.some.injEq] at hh
      rw [hh]
      rw [List.reverse_cons,
        show start :: (cs.reverse ++ [goal]) = (start :: cs.reverse) ++ [goal] by simp]
      exact List.getLast?_concat _
  | case3 x e rest hpop hne ih =>
    intro hInv hwit
    have hloop : astarLoop n maze start goal x = astarLoop n maze start goal
        (astarStep n maze goal e.2 { x with open_set := rest }) := by
      rw [astarLoop.eq_def]
      split
      · rename_i heq
        rw [hpop] at heq
        exact Option.noConfusion heq
      · rename_i e' rest' heq
        rw [hpop] at heq
        injection heq with h1
        injection h1 with h2 h3
        subst h2
        subst h3
        rw [if_neg hne]
    rw [hloop]
    exact ih (invbase_step hInv hpop hne)
      (invwit_step hInv hwit hpop hne hleast hw2 hw3 hw4 hw5)

/-- The initial search state satisfies the base invariant. -/
theorem invbase_init (n : Int) (maze : Cell → Nat) (start goal : Cell) :
    InvBase n maze start goal (initState start) := by
  refine ⟨?_, rfl, ?_, ?_, ?_⟩
  · simp [initState, lookupg]
  · intro f c hfc
    simp only [initState, List.mem_singleton, Prod.mk.injEq] at hfc
    exact Or.inl hfc
  · intro c v hc hcs
    exfalso
    simp only [initState, lookupg] at hc
    rw [if_neg hcs] at hc
    exact Option.noConfusion hc
  · rintro ⟨v, hv⟩
    refine ⟨0, ?_⟩
    simp only [initState, lookupg] at hv ⊢
    by_cases hgs : goal = start
    · subst hgs
      simp
    · rw [if_neg hgs] at hv
      exact Option.noConfusion hv

/-- The initial search state satisfies the progress invariant along any
shortest walk starting at `start`. -/
theorem invwit_init (start goal : Cell)
    {w : List Cell} {m : Nat} (hw2 : w.getD 0 start = start) :
    InvWit goal w start m (initState start) := by
  have hset0 : settled (initState start).g_score w start 0 := by
    unfold settled
    rw [hw2]
    simp [initState, lookupg]
  by_cases hm0 : m = 0
  · left
    rw [hm0]
    exact hset0
  · right
    have hwi : witIdx (initState start).g_score w start m = 0 := by
      apply Nat.findGreatest_eq_zero_iff.mpr
      intro j hj hjm hsj
      unfold settled at hsj
      simp only [initState, lookupg] at hsj
      split at hsj
      · injection hsj with hh
        omega
      · exact Option.noConfusion hsj
    refine ⟨0, ?_, ?_⟩
    · rw [hwi]
      omega
    · rw [hwi, hw2]
      simp [initState]

/-- `astar` on any connected instance: non-empty result whose cell count is
one more than the shortest distance, headed by `start` and ending at `goal`. -/
theorem astar_spec {n : Int} {maze : Cell → Nat} {start goal : Cell} {m : Nat}
    (hleast : IsLeast {k | ReachN n n maze start goal k} m) :
    astar n maze start goal ≠ [] ∧
    (astar n maze start goal).length = m + 1 ∧
    (astar n maze start goal).head? = some start ∧
    (astar n maze start goal).getLast? = some goal := by
  obtain ⟨w, hw1, hw2, hw3, hw4, hw5⟩ := reachN_walk hleast.1
  have hmain := astarLoop_spec hleast hw2 hw3 hw4 hw5 (initState start)
    (invbase_init n maze start goal) (invwit_init start goal hw2)
  unfold astar
  refine ⟨?_, hmain.2.2, hmain.1, hmain.2.1⟩
  intro hnil
  rw [hnil] at hmain
  simp at hmain

/-- When no walk connects `start` to `goal`, the loop empties its frontier
and returns `[]` from any state satisfying the base invariant. -/
theorem astarLoop_notfound {n : Int} {maze : Cell → Nat} {start goal : Cell}
    (hnone : ∀ k, ¬ ReachN n n maze start goal k) :
    ∀ s : AState, InvBase n maze start goal s →
      astarLoop n maze start goal s = [] := by
  intro s
  induction s using astarLoop.induct n maze start goal with
  | case1 x hpop =>
    intro hInv
    rw [astarLoop.eq_def]
    split
    · rfl
    · rename_i e' rest' heq
      rw [hpop] at heq
      exact Option.noConfusion heq
  | case2 x e rest hpop hgoal =>
    intro hInv
    exfalso
    obtain ⟨vc, hvc⟩ := popped_has_g hInv hpop
    rw [hgoal] at hvc
    obtain ⟨k, hk, hkr⟩ := g_reach hInv vc goal hvc
    exact hnone k hkr
  | case3 x e rest hpop hne ih =>
    intro hInv
    have hloop : astarLoop n maze start goal x = astarLoop n maze start goal
        (astarStep n maze goal e.2 { x with open_set := rest }) := by
      rw [astarLoop.eq_def]
      split
      · rename_i heq
        rw [hpop] at heq
        exact Option.noConfusion heq
      · rename_i e' rest' heq
        rw [hpop] at heq
        injection heq with h1
        injection h1 with h2 h3
        subst h2
        subst h3
        rw [if_neg hne]
    rw [hloop]
    exact ih (invbase_step hInv hpop hne)

end AStar

/-- A walk certified by the executable checker is a `ReachN` walk to the
list's last cell, of length the list's length. -/
theorem walkBool_reach {W H : Int} {maze : Cell → Nat} :
    ∀ (a : Cell) (l : List Cell), walkBool W H maze a l = true →
      ReachN W H maze a (l.getLastD a) l.length := by
  intro a l
  induction l generalizing a with
  | nil =>
    intro _
    exact .zero
  | cons c rest ih =>
    intro h
    simp only [walkBool, Bool.and_eq_true, decide_eq_true_eq] at h
    obtain ⟨⟨hadj, hopen⟩, hrest⟩ := h
    have htail := ih c hrest
    have hall := reachN_trans (reachN_single hadj hopen) htail
    simp only [List.getLastD_cons, List.length_cons]
    rwa [Nat.add_comm] at hall

/-- The target of a nonzero-length walk is an open cell. -/
theorem reachN_target_open {W H : Int} {maze : Cell → Nat} {a c : Cell} {k : Nat}
    (h : ReachN W H maze a c k) : c = a ∨ OpenCell W H maze c := by
  cases h with
  | zero => exact Or.inl rfl
  | succ hr hadj hopen => exact Or.inr hopen

/-- Scenario A of the spec: on the wall-free 10×10 grid the shortest distance
from `(0,0)` to `(9,9)` is the Manhattan distance 18, certified by an explicit
corridor walk and the Manhattan lower bound. -/
theorem scenarioA_least :
    IsLeast {k | ReachN 10 10 (fun _ => 0) ((0 : Int), (0 : Int)) (9, 9) k} 18 := by
  constructor
  · have hwb : walkBool 10 10 (fun _ => 0) ((0 : Int), (0 : Int))
        [(1, 0), (2, 0), (3, 0), (4, 0), (5, 0), (6, 0), (7, 0), (8, 0), (9, 0),
         (9, 1), (9, 2), (9, 3), (9, 4), (9, 5), (9, 6), (9, 7), (9, 8), (9, 9)]
          = true := by decide
    exact walkBool_reach _ _ hwb
  · intro k hk
    have := manhattan_le_reach hk
    simpa [manhattan] using this

/-- Claim C1: for every grid and every start/goal pair connected in the
4-connected graph of open cells (shortest distance `m`), `astar` returns a
non-empty path with exactly `m` steps (`m + 1` cells), from `start` to
`goal`. -/
theorem c1_astar_optimal (n : Int) (maze : Cell → Nat) (start goal : Cell)
    (m : Nat) (hleast : IsLeast {k | ReachN n n maze start goal k} m) :
    AStar.astar n maze start goal ≠ [] ∧
    (AStar.astar n maze start goal).length = m + 1 ∧
    (AStar.astar n maze start goal).head? = some start ∧
    (AStar.astar n maze start goal).getLast? = some goal :=
  AStar.astar_spec hleast

/-- Witness for C1: on the wall-free 2×2 grid the distance from `(0,0)` to
`(1,1)` is 2 and `astar` returns a 3-cell path. -/
theorem c1_witness :
    AStar.astar 2 (fun _ => 0) ((0 : Int), (0 : Int)) (1, 1) ≠ [] ∧
    (AStar.astar 2 (fun _ => 0) ((0 : Int), (0 : Int)) (1, 1)).length = 2 + 1 := by
  have hle : IsLeast {k | ReachN 2 2 (fun _ => 0) ((0 : Int), (0 : Int)) (1, 1) k} 2 := by
    constructor
    · have hwb : walkBool 2 2 (fun _ => 0) ((0 : Int), (0 : Int)) [(1, 0), (1, 1)]
          = true := by decide
      exact walkBool_reach _ _ hwb
    · intro k hk
      have := manhattan_le_reach hk
      simpa [manhattan] using this
  have h := c1_astar_optimal 2 (fun _ => 0) (0, 0) (1, 1) 2 hle
  exact ⟨h.1, h.2.1⟩

/-- Claim C3 is falsified on its own Scenario A instance: the start cell
`(0,0)` *is* an element of the path `astar` returns on the wall-free 10×10
grid (the reconstruction appends `start` before reversing). -/
theorem c3_counterexample :
    ((0 : Int), (0 : Int)) ∈ AStar.astar 10 (fun _ => 0) (0, 0) (9, 9) := by
  have h := AStar.astar_spec scenarioA_least
  exact List.mem_of_mem_head? (by rw [h.2.2.1]; rfl)

/-! ## Game7.py's a_star: the reconstruction omits the start -/

namespace Game7

theorem relaxOne7_cases (n : Int) (maze : Cell → Nat) (goal cur : Cell)
    (st : AState7) (d : Int × Int) :
    relaxOne7 n maze goal cur st d = st ∨
    ((lookupg st.g_score (cur.1 + d.1, cur.2 + d.2) = none ∨
      ∃ v, lookupg st.g_score (cur.1 + d.1, cur.2 + d.2) = some v ∧
        (lookupg st.g_score cur).getD 0 + 1 < v) ∧
     relaxOne7 n maze goal cur st d =
       { st with
         open_set := st.open_set ++
           [((lookupg st.g_score cur).getD 0 + 1 +
               manhattan (cur.1 + d.1, cur.2 + d.2) goal,
             (cur.1 + d.1, cur.2 + d.2))]
         came_from := fun c => if c = (cur.1 + d.1, cur.2 + d.2) then some cur
           else st.came_from c
         g_score := setg st.g_score (cur.1 + d.1, cur.2 + d.2)
           ((lookupg st.g_score cur).getD 0 + 1) }) := by
  by_cases hguard : 0 ≤ cur.1 + d.1 ∧ cur.1 + d.1 < n ∧ 0 ≤ cur.2 + d.2 ∧
      cur.2 + d.2 < n ∧ maze (cur.1 + d.1, cur.2 + d.2) ≠ 2 ∧
      (cur.1 + d.1, cur.2 + d.2) ∉ st.closed
  · cases hl : lookupg st.g_score (cur.1 + d.1, cur.2 + d.2) with
    | none =>
      right
      exact ⟨Or.inl rfl, by simp [relaxOne7, hguard, hl]⟩
    | some v =>
      by_cases hlt : (lookupg st.g_score cur).getD 0 + 1 < v
      · right
        exact ⟨Or.inr ⟨v, rfl, hlt⟩, by simp [relaxOne7, hguard, hl, hlt]⟩
      · left
        simp [relaxOne7, hguard, hl, hlt]
  · left
    simp [relaxOne7, hguard]

theorem relaxOne7_g_other {n : Int} {maze : Cell → Nat} {goal cur : Cell}
    {st : AState7} {d : Int × Int} {c : Cell}
    (hc : c ≠ (cur.1 + d.1, cur.2 + d.2)) :
    lookupg (relaxOne7 n maze goal cur st d).g_score c = lookupg st.g_score c := by
  rcases relaxOne7_cases n maze goal cur st d with h | ⟨-, h⟩
  · rw [h]
  · rw [h]
    exact lookupg_setg_ne _ _ hc

theorem relaxOne7_invbase {n : Int} {maze : Cell → Nat} {start cur goal : Cell}
    {st : AState7} {d : Int × Int} (hd : d ∈ dirs)
    (hInv : InvBase7 start st)
    (hcurv : ∃ vc, lookupg st.g_score cur = some vc) :
    InvBase7 start (relaxOne7 n maze goal cur st d) := by
  obtain ⟨h1, h2, h3, h4⟩ := hInv
  obtain ⟨vc, hvc⟩ := hcurv
  rcases relaxOne7_cases n maze goal cur st d with heq | ⟨hcond, heq⟩
  · rw [heq]; exact ⟨h1, h2, h3, h4⟩
  · have hcurnb : cur ≠ (cur.1 + d.1, cur.2 + d.2) :=
      fun hh => AStar.step_ne_self hd hh.symm
    have hnbstart : (cur.1 + d.1, cur.2 + d.2) ≠ start := by
      intro heqs
      rcases hcond with hnone | ⟨v, hv, hlt⟩
      · rw [heqs, h1] at hnone
        cases hnone
      · rw [heqs, h1] at hv
        have : v = 0 := by injection hv with hv; omega
        omega
    rw [heq]
    refine ⟨?_, ?_, ?_, ?_⟩
    · dsimp only
      rw [lookupg_setg_ne _ _ (fun hh => hnbstart hh.symm)]
      exact h1
    · dsimp only
      rw [if_neg (fun hh => hnbstart hh.symm)]
      exact h2
    · dsimp only
      intro f c hfc
      rcases List.mem_append.mp hfc with hold | hnew
      · rcases h3 f c hold with hfirst | ⟨v, hv⟩
        · exact Or.inl hfirst
        · right
          by_cases hc : c = (cur.1 + d.1, cur.2 + d.2)
          · subst hc
            exact ⟨_, lookupg_setg_self _ _ _⟩
          · exact ⟨v, by rw [lookupg_setg_ne _ _ hc]; exact hv⟩
      · simp only [List.mem_singleton] at hnew
        right
        have hc2 : c = (cur.1 + d.1, cur.2 + d.2) := congrArg Prod.snd hnew
        rw [hc2]
        exact ⟨_, lookupg_setg_self _ _ _⟩
    · dsimp only
      intro c v hv hcs
      by_cases hc : c = (cur.1 + d.1, cur.2 + d.2)
      · subst hc
        rw [lookupg_setg_self] at hv
        have hvt : v = (lookupg st.g_score cur).getD 0 + 1 := by
          injection hv with hv; omega
        have hgetD : (lookupg st.g_score cur).getD 0 = vc := by rw [hvc]; rfl
        refine ⟨cur, vc, by simp, ?_, by omega⟩
        rw [lookupg_setg_ne _ _ hcurnb]
        exact hvc
      · rw [lookupg_setg_ne _ _ hc] at hv
        obtain ⟨p, vp, hp1, hp4, hp5⟩ := h4 c v hv hcs
        by_cases hpnb : p = (cur.1 + d.1, cur.2 + d.2)
        · subst hpnb
          rcases hcond with hnone | ⟨w, hw, hlt⟩
          · rw [hp4] at hnone; cases hnone
          · rw [hp4] at hw
            have hvw : vp = w := by injection hw
            refine ⟨_, (lookupg st.g_score cur).getD 0 + 1,
              by rw [if_neg hc]; exact hp1, lookupg_setg_self _ _ _, ?_⟩
            omega
        · exact ⟨p, vp, by rw [if_neg hc]; exact hp1,
            by rw [lookupg_setg_ne _ _ hpnb]; exact hp4, hp5⟩

theorem foldRelax7_invbase {n : Int} {maze : Cell → Nat} {start cur goal : Cell} :
    ∀ (ds : List (Int × Int)) (st : AState7), (∀ d ∈ ds, d ∈ dirs) →
    InvBase7 start st →
    (∃ vc, lookupg st.g_score cur = some vc) →
    InvBase7 start (ds.foldl (relaxOne7 n maze goal cur) st) := by
  intro ds
  induction ds with
  | nil => exact fun st _ hInv _ => hInv
  | cons d ds ih =>
    intro st hds hInv hcurv
    simp only [List.foldl_cons]
    obtain ⟨vc, hvc⟩ := hcurv
    apply ih _ (fun d' hd' => hds d' (by simp [hd']))
      (relaxOne7_invbase (hds d (by simp)) hInv ⟨vc, hvc⟩)
    refine ⟨vc, ?_⟩
    rw [relaxOne7_g_other (fun hh => AStar.step_ne_self (hds d (by simp)) hh.symm)]
    exact hvc

/-- The g-score of a popped heap cell exists in `Game7.py`'s search too. -/
theorem popped_has_g7 {start : Cell} {s : AState7} {e : Nat × Cell}
    {rest : List (Nat × Cell)} (hInv : InvBase7 start s)
    (hpop : popMin s.open_set = some (e, rest)) :
    ∃ vc, lookupg s.g_score e.2 = some vc := by
  rcases hInv.2.2.1 e.1 e.2 (by simpa using popMin_mem hpop) with hc | ⟨v, hv⟩
  · exact ⟨0, by rw [hc]; exact hInv.1⟩
  · exact ⟨v, hv⟩

/-- Popping and growing the closed list preserves the chain invariant. -/
theorem invbase7_pop {start : Cell} {s : AState7} {e : Nat × Cell}
    {rest : List (Nat × Cell)} (hInv : InvBase7 start s)
    (hpop : popMin s.open_set = some (e, rest)) :
    InvBase7 start { s with open_set := rest, closed := s.closed ++ [e.2] } := by
  obtain ⟨h1, h2, h3, h4⟩ := hInv
  refine ⟨h1, h2, ?_, h4⟩
  intro f c hfc
  exact h3 f c ((popMin_perm hpop).mem_iff.mpr (by simp [hfc]))

/-- One full non-goal loop iteration preserves the chain invariant. -/
theorem invbase7_step {n : Int} {maze : Cell → Nat} {start goal : Cell}
    {s : AState7} {e : Nat × Cell} {rest : List (Nat × Cell)}
    (hInv : InvBase7 start s)
    (hpop : popMin s.open_set = some (e, rest)) :
    InvBase7 start (astarStep7 n maze goal e.2
      { s with open_set := rest, closed := s.closed ++ [e.2] }) := by
  unfold astarStep7
  obtain ⟨vc, hvc⟩ := popped_has_g7 hInv hpop
  exact foldRelax7_invbase dirs _ (fun d hd => hd) (invbase7_pop hInv hpop)
    ⟨vc, hvc⟩

/-- The reconstruction chain of `a_star`: `rebuild` returns a chain that
never contains the start, is duplicate-free, is empty exactly when the
rebuilt cell is the start, and otherwise begins with the rebuilt cell. -/
theorem rebuild_chain7 {start : Cell} {s : AState7} (hInv : InvBase7 start s) :
    ∀ v c, lookupg s.g_score c = some v →
    ∃ chain : List Cell,
      (∀ (acc : List Cell) (fuel : Nat), chain.length ≤ fuel →
        AStar.rebuild s.came_from fuel c acc = acc ++ chain) ∧
      chain.length ≤ v ∧
      (∀ x ∈ chain, ∃ vx, lookupg s.g_score x = some vx ∧ vx ≤ v) ∧
      start ∉ chain ∧ chain.Nodup ∧
      (chain = [] → c = start) ∧ (chain ≠ [] → chain.head? = some c) := by
  intro v
  induction v using Nat.strong_induction_on with
  | _ v ih =>
    intro c hc
    by_cases hcs : c = start
    · subst hcs
      refine ⟨[], ?_, by simp, by simp, by simp, by simp, fun _ => rfl,
        fun hne => absurd rfl hne⟩
      intro acc fuel _
      cases fuel with
      | zero => simp [AStar.rebuild]
      | succ f => simp [AStar.rebuild, hInv.2.1]
    · obtain ⟨p, vp, hp1, hp4, hp5⟩ := hInv.2.2.2 c v hc hcs
      obtain ⟨chain_p, hr1, hr2, hr4, hr5, hr6, hr7, hr8⟩ :=
        ih vp (by omega) p hp4
      refine ⟨c :: chain_p, ?_, ?_, ?_, ?_, ?_, by simp, fun _ => rfl⟩
      · intro acc fuel hfl
        cases fuel with
        | zero => simp at hfl
        | succ f =>
          simp only [AStar.rebuild, hp1]
          rw [hr1 (acc ++ [c]) f (by simp at hfl; omega)]
          simp
      · simp only [List.length_cons]
        omega
      · intro x hx
        rcases List.mem_cons.mp hx with rfl | hx
        · exact ⟨v, hc, le_refl v⟩
        · obtain ⟨vx, hvx1, hvx2⟩ := hr4 x hx
          exact ⟨vx, hvx1, by omega⟩
      · intro hcon
        rcases List.mem_cons.mp hcon with h1 | h1
        · exact hcs h1.symm
        · exact hr5 h1
      · refine List.nodup_cons.mpr ⟨?_, hr6⟩
        intro hcmem
        obtain ⟨vx, hvx1, hvx2⟩ := hr4 c hcmem
        rw [hc] at hvx1
        have : v = vx := by injection hvx1
        omega

/-- The value returned at a goal pop of `a_star`: the reversed chain, which
omits the start, and whose first chain cell is the goal. -/
theorem return_path7 {start goal : Cell} {s : AState7}
    (hInv : InvBase7 start s) {v : Nat}
    (hg : lookupg s.g_score goal = some v) :
    ∃ chain : List Cell,
      (AStar.rebuild s.came_from (s.g_score.length + 1) goal []).reverse =
        chain.reverse ∧
      start ∉ chain ∧
      (chain = [] → goal = start) ∧ (chain ≠ [] → chain.head? = some goal) := by
  obtain ⟨chain, hr1, hr2, hr4, hr5, hr6, hr7, hr8⟩ := rebuild_chain7 hInv v goal hg
  have hsub : chain.toFinset ⊆ (keyset s.g_score).erase start := by
    intro x hx
    rw [List.mem_toFinset] at hx
    rw [Finset.mem_erase]
    obtain ⟨vx, hvx, -⟩ := hr4 x hx
    exact ⟨fun hh => hr5 (hh ▸ hx), lookupg_some_mem hvx⟩
  have hstart_mem : start ∈ keyset s.g_score := lookupg_some_mem hInv.1
  have hlen : chain.length ≤ s.g_score.length - 1 := by
    have h1 : chain.toFinset.card = chain.length := List.toFinset_card_of_nodup hr6
    have h2 : chain.toFinset.card ≤ ((keyset s.g_score).erase start).card :=
      Finset.card_le_card hsub
    have h3 : ((keyset s.g_score).erase start).card = (keyset s.g_score).card - 1 :=
      Finset.card_erase_of_mem hstart_mem
    have h4 : (keyset s.g_score).card ≤ s.g_score.length := by
      have := List.toFinset_card_le (s.g_score.map Prod.fst)
      simpa [keyset] using this
    omega
  have hfuel : chain.length ≤ s.g_score.length + 1 := by omega
  rw [hr1 [] _ hfuel]
  exact ⟨chain, by simp, hr5, hr7, hr8⟩

/-- From any state satisfying the chain invariant, `a_star`'s loop returns a
list that never contains the start and, when non-empty, ends at the goal. -/
theorem astarLoop7_exclusive {n : Int} {maze : Cell → Nat} {start goal : Cell} :
    ∀ s : AState7, InvBase7 start s →
      start ∉ astarLoop7 n maze goal s ∧
      (astarLoop7 n maze goal s ≠ [] →
        (astarLoop7 n maze goal s).getLast? = some goal) := by
  intro s
  induction s using astarLoop7.induct n maze goal with
  | case1 x hpop =>
    intro hInv
    have h0 : astarLoop7 n maze goal x = [] := by
      rw [astarLoop7.eq_def]
      split
      · rfl
      · rename_i e' rest' heq
        rw [hpop] at heq
        exact Option.noConfusion heq
    rw [h0]
    exact ⟨by simp, fun hne => absurd rfl hne⟩
  | case2 x e rest hpop hgoal =>
    intro hInv
    obtain ⟨vg, hvg⟩ := popped_has_g7 hInv hpop
    rw [hgoal] at hvg
    obtain ⟨chain, hre, hstart, hnil, hhead⟩ := return_path7 hInv hvg
    have hloop : astarLoop7 n maze goal x =
        (AStar.rebuild x.came_from (x.g_score.length + 1) goal []).reverse := by
      rw [astarLoop7.eq_def]
      split
      · rename_i heq
        rw [hpop] at heq
        exact Option.noConfusion heq
      · rename_i e' rest' heq
        rw [hpop] at heq
        injection heq with h1
        injection h1 with h2 h3
        subst h2
        rw [if_pos hgoal]
    rw [hloop, hre]
    constructor
    · simp only [List.mem_reverse]
      exact hstart
    · intro hne
      have hchne : chain ≠ [] := by
        intro hh
        rw [hh] at hne
        exact hne rfl
      rw [List.getLast?_reverse]
      exact hhead hchne
  | case3 x e rest hpop hne ih =>
    intro hInv
    have hloop : astarLoop7 n maze goal x = astarLoop7 n maze goal
        (astarStep7 n maze goal e.2
          { x with open_set := rest, closed := x.closed ++ [e.2] }) := by
      rw [astarLoop7.eq_def]
      split
      · rename_i heq
        rw [hpop] at heq
        exact Option.noConfusion heq
      · rename_i e' rest' heq
        rw [hpop] at heq
        injection heq with h1
        injection h1 with h2 h3
        subst h2
        subst h3
        rw [if_neg hne]
    rw [hloop]
    exact ih (invbase7_step hInv hpop)

/-- The initial `a_star` state satisfies the chain invariant. -/
theorem invbase7_init (start goal : Cell) :
    InvBase7 start (initState7 start goal) := by
  refine ⟨?_, rfl, ?_, ?_⟩
  · simp [initState7, lookupg]
  · intro f c hfc
    simp only [initState7, List.mem_singleton, Prod.mk.injEq] at hfc
    exact Or.inl hfc.2
  · intro c v hc hcs
    exfalso
    simp only [initState7, lookupg] at hc
    rw [if_neg hcs] at hc
    exact Option.noConfusion hc

/-- `Game7.py`'s `a_star` returns start-exclusive paths ending at the goal. -/
theorem a_star_exclusive (n : Int) (maze : Cell → Nat) (start goal : Cell) :
    start ∉ a_star n maze start goal ∧
    (a_star n maze start goal ≠ [] →
      (a_star n maze start goal).getLast? = some goal) := by
  unfold a_star
  exact astarLoop7_exclusive (initState7 start goal) (invbase7_init start goal)

end Game7

/-- C3 (amended): whether the current position appears in the returned path
depends on the variant.  `Game7.py`'s `a_star` reconstruction omits the
start, as originally claimed: its results never contain the start cell and,
when non-empty, end at the goal.  `Game.py`'s `astar` instead appends the
start before reversing: its paths begin with the start cell and end at the
goal, and on the wall-free 10×10 grid from `(0,0)` to `(9,9)` it returns an
18-step path of 19 cells. -/
theorem c3_amended_per_variant (n : Int) (maze : Cell → Nat)
    (start goal : Cell) (m : Nat)
    (hleast : IsLeast {k | ReachN n n maze start goal k} m) :
    ((AStar.astar n maze start goal).head? = some start ∧
     (AStar.astar n maze start goal).getLast? = some goal ∧
     (AStar.astar 10 (fun _ => 0) ((0 : Int), (0 : Int)) (9, 9)).length = 19) ∧
    (∀ (W : Int) (mz : Cell → Nat) (a b : Cell),
      a ∉ Game7.a_star W mz a b ∧
      (Game7.a_star W mz a b ≠ [] →
        (Game7.a_star W mz a b).getLast? = some b)) := by
  have h := AStar.astar_spec hleast
  have hA := AStar.astar_spec scenarioA_least
  exact ⟨⟨h.2.2.1, h.2.2.2, hA.2.1⟩,
    fun W mz a b => Game7.a_star_exclusive W mz a b⟩

/-- Witness for the amended C3: the `Game.py` half on the wall-free 2×2 grid
with goal `(0,1)`, and the `Game7.py` half instantiated on Scenario A. -/
theorem c3_amended_witness :
    (AStar.astar 2 (fun _ => 0) ((0 : Int), (0 : Int)) (0, 1)).head? = some (0, 0) ∧
    (AStar.astar 2 (fun _ => 0) ((0 : Int), (0 : Int)) (0, 1)).getLast? = some (0, 1) ∧
    (AStar.astar 10 (fun _ => 0) ((0 : Int), (0 : Int)) (9, 9)).length = 19 ∧
    ((0 : Int), (0 : Int)) ∉ Game7.a_star 10 (fun _ => 0) (0, 0) (9, 9) := by
  have hle : IsLeast {k | ReachN 2 2 (fun _ => 0) ((0 : Int), (0 : Int)) (0, 1) k} 1 := by
    constructor
    · exact reachN_single (by decide) (by decide)
    · intro k hk
      have := manhattan_le_reach hk
      simpa [manhattan] using this
  have h := c3_amended_per_variant 2 (fun _ => 0) (0, 0) (0, 1) 1 hle
  exact ⟨h.1.1, h.1.2.1, h.1.2.2, (h.2 10 (fun _ => 0) (0, 0) (9, 9)).1⟩

/-- Claim C9: when no walk of open cells connects `start` to `goal`, `astar`
terminates and returns the empty list as an ordinary value. -/
theorem c9_notfound (n : Int) (maze : Cell → Nat) (start goal : Cell)
    (hnone : ∀ k, ¬ ReachN n n maze start goal k) :
    AStar.astar n maze start goal = [] :=
  AStar.astarLoop_notfound hnone (AStar.initState start)
    (AStar.invbase_init n maze start goal)

/-- Witness for C9: a 2×2 grid whose only open cell is `(0,0)` disconnects
`(0,0)` from `(1,1)`, and `astar` returns `[]`. -/
theorem c9_witness :
    AStar.astar 2 (fun c => if c = ((0 : Int), (0 : Int)) then 0 else 1) (0, 0) (1, 1)
      = [] := by
  have hnone : ∀ k, ¬ ReachN 2 2
      (fun c => if c = ((0 : Int), (0 : Int)) then 0 else 1) (0, 0) (1, 1) k := by
    intro k hk
    rcases reachN_target_open hk with h | h
    · exact absurd h (by decide)
    · exact absurd h (by decide)
  exact c9_notfound 2 (fun c => if c = ((0 : Int), (0 : Int)) then 0 else 1)
    (0, 0) (1, 1) hnone

/-- Claim C5 is falsified by `lrtastar.py`: one `NPC.update` tick from the
source's own initial configuration (3×20 road, start `(0,19)`, goal `(0,0)`)
writes 18 into the shared maze at `(0,19)`, which held 0 before the call. -/
theorem c5_counterexample :
    (Lrta.NPC.update 3 20 (Lrta.NPC.init (fun _ => 0) (0, 19) (0, 0))).maze
        ((0 : Int), (19 : Int)) = 18 ∧
    (Lrta.NPC.init (fun _ => 0) ((0 : Int), (19 : Int)) (0, 0)).maze (0, 19) = 0 := by
  constructor
  · decide
  · decide

/-- C5 (amended): a `game10.py` tick leaves the module-level maze untouched
(its `NPC.update` only reads it), while an `lrtastar.py` tick that selects a
neighbor overwrites the maze at the current cell with the minimum of the two
Manhattan heuristics. -/
theorem c5_amended (W H : Int) (world : Game10.World) (b : List Cell)
    (s : Lrta.NPC) (next : Cell)
    (hm : s.fsm = NPCState.MOVING) (hg : s.position ≠ s.goal)
    (hc : argminKey (fun c => manhattan c s.goal)
      (neighborsOf W H s.maze s.position) = some next) :
    (Game10.World.update W H world b).maze = world.maze ∧
    (Lrta.NPC.update W H s).maze = fun c =>
      if c = s.position
        then min (manhattan s.position s.goal) (manhattan next s.goal)
        else s.maze c := by
  refine ⟨rfl, ?_⟩
  unfold Lrta.NPC.update
  rw [if_neg (by simp [hm])]
  dsimp only
  rw [if_neg hg, hc]
  dsimp only [Lrta.NPC.update_heuristic]
  split
  · unfold Lrta.NPC.backtrack
    split
    · rfl
    · rfl
  · rfl

/-- Witness for the amended C5 at the `lrtastar.py` initial configuration. -/
theorem c5_amended_witness :
    (Game10.World.update 3 20
        ⟨fun _ => 0, Game10.NPC.init ((0 : Int), (19 : Int)) (0, 0)⟩ []).maze =
      (⟨fun _ => 0, Game10.NPC.init ((0 : Int), (19 : Int)) (0, 0)⟩ :
        Game10.World).maze ∧
    (Lrta.NPC.update 3 20 (Lrta.NPC.init (fun _ => 0) (0, 19) (0, 0))).maze =
      fun c => if c = ((0 : Int), (19 : Int))
        then min (manhattan ((0 : Int), (19 : Int)) (0, 0))
          (manhattan ((0 : Int), (18 : Int)) (0, 0))
        else (Lrta.NPC.init (fun _ => 0) ((0 : Int), (19 : Int)) (0, 0)).maze c :=
  c5_amended 3 20 ⟨fun _ => 0, Game10.NPC.init (0, 19) (0, 0)⟩ []
    (Lrta.NPC.init (fun _ => 0) (0, 19) (0, 0)) (0, 18)
    rfl (by decide) (by decide)

/-- Witness for the amended C8 at a concrete stuck input. -/
theorem c8_amended_witness :
    (Game10.NPC.init ((0 : Int), (0 : Int)) (1, 1)).fsm = NPCState.MOVING ∧
    (Game10.NPC.init ((0 : Int), (0 : Int)) (1, 1)).position ≠ (1, 1) ∧
    ((Game10.NPC.init ((0 : Int), (0 : Int)) (1, 1)).path.length ≤ 1 →
      (Game10.NPC.update 2 2 (fun c => if c = ((0 : Int), (0 : Int)) then 0 else 1)
          (Game10.NPC.init (0, 0) (1, 1)) []).out =
        (Game10.NPC.init ((0 : Int), (0 : Int)) (1, 1)).out ++
          [Msg.noNeighbors, Msg.stuck]) :=
  ⟨by decide, by decide,
    fun hl => ((c8_amended_backtrack_or_print 2 2
      (fun c => if c = ((0 : Int), (0 : Int)) then 0 else 1)
      (Game10.NPC.init (0, 0) (1, 1)) [] (by decide) (by decide)
      (by decide)).2 hl).2.2.2⟩

end RT
